import Mathlib

/-!
Verification development for the File-Structure-Generator repository
(src/generator.py).  The program parses a textual drawing of a directory
tree into a nested mapping (the Tree Model) and materializes it on disk.

Strings are modelled as lists of characters (`Str`), Python dictionaries
as insertion-ordered association lists with last-write-in-place update
(`setKey`), and the filesystem as a record of a directory-path list and a
file-path/content association list.
-/

/-- Characters treated as whitespace by Python's default str.strip/rstrip. -/
def pyWhite (c : Char) : Bool :=
  c = ' ' || c = '\t' || c = '\n' || c = '\r' || c = '\x0b' || c = '\x0c'

/-- Python strings, modelled as lists of characters. -/
abbrev Str := List Char

/-- Python str.strip(): drop whitespace from both ends. -/
def pstrip (s : Str) : Str :=
  ((s.dropWhile pyWhite).reverse.dropWhile pyWhite).reverse

/-- Python str.rstrip(): drop whitespace from the right end. -/
def prstrip (s : Str) : Str :=
  (s.reverse.dropWhile pyWhite).reverse

/-- Python str.split(sep) for a one-character separator: always returns a
non-empty list of separator-free segments. -/
def splitChar (sep : Char) : Str → List Str
  | [] => [[]]
  | c :: cs =>
    match splitChar sep cs with
    | [] => [[]]
    | r :: rs => if c = sep then [] :: r :: rs else (c :: r) :: rs

/-- Test whether `n` is an initial segment of `h` (used for Python's
substring operator via `pySubstr`). -/
def lstarts : Str → Str → Bool
  | [], _ => true
  | _ :: _, [] => false
  | a :: as, b :: bs => a = b && lstarts as bs

/-- Python's `n in h` on strings: substring containment. -/
def pySubstr (n : Str) : Str → Bool
  | [] => lstarts n []
  | c :: cs => lstarts n (c :: cs) || pySubstr n cs

/-- A node of the Tree Model: a file (with its content string) or a
directory holding an insertion-ordered mapping from names to nodes. -/
inductive Node where
  | file (content : Str)
  | dir (children : List (Str × Node))

/-- The Tree Model: a Python-dict-like insertion-ordered mapping. -/
abbrev TreeM := List (Str × Node)

/-- Python dict assignment `d[k] = v`: update in place if present,
otherwise append at the end. -/
def setKey : TreeM → Str → Node → TreeM
  | [], k, v => [(k, v)]
  | (k', v') :: rest, k, v =>
    if k' = k then (k, v) :: rest else (k', v') :: setKey rest k v

/-- Python dict lookup `d[k]` (as an option). -/
def getKey : TreeM → Str → Option Node
  | [], _ => none
  | (k', v') :: rest, k => if k' = k then some v' else getKey rest k

/-- Python `k in d` on a dict. -/
def containsKey (t : TreeM) (k : Str) : Bool :=
  (getKey t k).isSome

/-- The four tree-drawing glyphs handled by both parsers. -/
def treeGlyph (c : Char) : Bool :=
  c = '├' || c = '└' || c = '│' || c = '─'

/-- The Path Parser's glyph normalization: each tree-drawing character is
replaced by a single space (`line.replace(char, ' ')` for each glyph). -/
def replaceGlyphs (s : Str) : Str :=
  s.map (fun c => if treeGlyph c then ' ' else c)

/-- The walk of `parse_folder_structure` once `current` has become a
string value (a file's content): any intermediate segment raises a
TypeError; a final segment classified as a file raises; a final segment
classified as a directory is skipped when `part in current` (Python
substring test) and raises otherwise.  `Except.error ()` models the
raised TypeError. -/
def strParts (s : Str) : List Str → Bool → Except Unit Unit
  | [], _ => .ok ()
  | [p], isFile =>
    if isFile then .error ()
    else if pySubstr p s then .ok ()
    else .error ()
  | _ :: _ :: _, _ => .error ()

/-- The slash-walk of `parse_folder_structure`: walk/create intermediate
mapping nodes for all segments but the last; at the last segment a file
always overwrites, a directory is created only when the name is absent.
Descending into a string value continues via `strParts`. -/
def insertParts (t : TreeM) : List Str → Bool → Except Unit TreeM
  | [], _ => .ok t
  | [p], isFile =>
    if isFile then .ok (setKey t p (.file []))
    else if containsKey t p then .ok t
    else .ok (setKey t p (.dir []))
  | p :: q :: rest, isFile =>
    match getKey t p with
    | some (.dir c) =>
      (insertParts c (q :: rest) isFile).map (fun c' => setKey t p (.dir c'))
    | some (.file s) =>
      (strParts s (q :: rest) isFile).map (fun _ => t)
    | none =>
      (insertParts [] (q :: rest) isFile).map (fun c' => setKey t p (.dir c'))

/-- Processing of one cleaned line by `parse_folder_structure`:
classification by a dot in the final segment, slash-split walk, and the
no-slash root-level branch. -/
def processClean (root : TreeM) (clean : Str) : Except Unit TreeM :=
  let isFile :=
    if clean.contains '/' then ((splitChar '/' clean).getLastD []).contains '.'
    else clean.contains '.'
  if clean.contains '/' then
    insertParts root (splitChar '/' clean) isFile
  else if isFile then .ok (setKey root clean (.file []))
  else if containsKey root clean then .ok root
  else .ok (setKey root clean (.dir []))

/-- One iteration of the line loop of `parse_folder_structure`:
rstrip, skip blank, replace glyphs by spaces, strip, skip empty. -/
def processLine (root : TreeM) (line0 : Str) : Except Unit TreeM :=
  let line := prstrip line0
  if line = [] then .ok root
  else
    let clean := pstrip (replaceGlyphs line)
    if clean = [] then .ok root
    else processClean root clean

/-- The Path Parser `parse_folder_structure`, with `Except.error ()`
modelling a raised TypeError. -/
def parse_folder_structure (text : String) : Except Unit TreeM :=
  (splitChar '\n' (pstrip text.data)).foldlM processLine []

/-- Character scan for `re.sub(r'[│├└──]\s*', '', line)`: the flag
records that the scanner sits inside the whitespace run immediately
following a glyph, which the regex consumes together with the glyph. -/
def subGlyphsAux : Bool → Str → Str
  | _, [] => []
  | skipWS, c :: cs =>
    if skipWS && pyWhite c then subGlyphsAux true cs
    else if treeGlyph c then subGlyphsAux true cs
    else c :: subGlyphsAux false cs

/-- The Indent Parser's line cleaning, the embedding of
`re.sub(r'[│├└──]\s*', '', line)`: every occurrence of a tree-drawing
glyph together with the whitespace run immediately following it is
removed, anywhere in the line. -/
def subGlyphs (s : Str) : Str :=
  subGlyphsAux false s

/-- The cleaned line of `parse_tree_structure`: glyph removal followed by
str.strip(). -/
def cleanT (line : Str) : Str :=
  pstrip (subGlyphs line)

/-- The Indent Parser's indentation scan: count the leading run of spaces
and vertical-bar glyphs of the original line, stopping at any other
character. -/
def indentOf (line : Str) : Nat :=
  (line.takeWhile (fun c => c = ' ' || c = '│')).length

/-- The Indent Parser's classification: a cleaned line is a directory
when it ends with a slash, or when it contains no slash and its last
(only) segment contains no dot. -/
def isDirLine (clean : Str) : Bool :=
  (clean.reverse.head? = some '/') ||
    (!((splitChar '/' clean).getLastD []).contains '.' && !clean.contains '/')

/-- Python str.rstrip('/'): drop all trailing slashes. -/
def rstripSlash (s : Str) : Str :=
  (s.reverse.dropWhile (fun c => c = '/')).reverse

/-- Walk a chain of directory names down a Tree Model. -/
def follow : TreeM → List Str → Option TreeM
  | t, [] => some t
  | t, p :: ps =>
    match getKey t p with
    | some (.dir c) => follow c ps
    | _ => none

/-- Rebuild a Tree Model after replacing the mapping reached by a chain
of directory names by `f` of itself.  This is how mutation of an
aliased stack entry of `parse_tree_structure` is modelled: the stack of
open dicts is exactly the chain of mappings along the current path. -/
def updateAt : TreeM → List Str → (TreeM → TreeM) → TreeM
  | t, [], f => f t
  | t, p :: ps, f =>
    match getKey t p with
    | some (.dir c) => setKey t p (.dir (updateAt c ps f))
    | _ => t

/-- Body of the guarded pop loop of `parse_tree_structure`, run with a
fuel that bounds the number of iterations (each pop shortens the path,
so `path.length` fuel always suffices). -/
def popLoopF : Nat → List Str → Nat → List Str
  | 0, path, _ => path
  | fuel + 1, path, indent =>
    if path.length > indent then popLoopF fuel path.dropLast indent else path

/-- The guarded pop loop of `parse_tree_structure`
(`while len(stack) > indent + 1: stack.pop()`), on the path of names of
the open directories above the root (so the stack size is the path
length plus one). -/
def popLoop (path : List Str) (indent : Nat) : List Str :=
  popLoopF path.length path indent

/-- The state of the Indent Parser loop: the root mapping (the bottom of
the stack) and the chain of directory names whose mappings form the rest
of the stack, bottom to top. -/
structure PTState where
  root : TreeM
  path : List Str

/-- The initial Indent Parser state: `stack = [{}]`. -/
def initState : PTState := ⟨[], []⟩

/-- One iteration of the line loop of `parse_tree_structure`: skip blank
lines, clean the line, skip if empty, scan the indent, pop the stack to
depth `indent + 1`, then either open a fresh directory mapping (pushing
it) or record a file at the top of the stack. -/
def stepLine (s : PTState) (line : Str) : PTState :=
  if pstrip line = [] then s
  else
    let clean := cleanT line
    if clean = [] then s
    else
      let ind := indentOf line
      let path := popLoop s.path ind
      if isDirLine clean then
        let name := rstripSlash clean
        ⟨updateAt s.root path (fun lvl => setKey lvl name (.dir [])), path ++ [name]⟩
      else
        ⟨updateAt s.root path (fun lvl => setKey lvl clean (.file [])), path⟩

/-- The Indent Parser `parse_tree_structure`: fold the line loop over the
lines of the stripped input and return the bottom-most (root) mapping. -/
def parse_tree_structure (text : String) : TreeM :=
  ((splitChar '\n' (pstrip text.data)).foldl stepLine initState).root

/-- Name well-formedness asserted by the spec's data model: a key is a
non-empty string with no path separator. -/
def keyOK (k : Str) : Bool :=
  decide (k ≠ []) && k.all (fun c => !(c = '/'))

/-- A key containing no path separator. -/
def noSlashKey (k : Str) : Bool :=
  k.all (fun c => !(c = '/'))

/-- Check a predicate on every key of every mapping of a Tree Model. -/
def treeKeysAll (q : Str → Bool) : TreeM → Bool
  | [] => true
  | (k, Node.dir c) :: rest => q k && treeKeysAll q c && treeKeysAll q rest
  | (k, Node.file _) :: rest => q k && treeKeysAll q rest

/-- A Tree Model containing no file nodes at all (every value is a
mapping); such trees arise from dot-free input to the Path Parser. -/
def noFilesT : TreeM → Bool
  | [] => true
  | (_, Node.file _) :: _ => false
  | (_, Node.dir c) :: rest => noFilesT c && noFilesT rest

/-- Top-level key list of a Tree Model. -/
def topKeys (t : TreeM) : List Str :=
  t.map (fun e => e.1)

/-- Keys are duplicate-free at every level (automatic for a Python
dict, stated explicitly for the association-list model). -/
def nodupKeys : TreeM → Bool
  | [] => true
  | (k, Node.dir c) :: rest =>
    !((topKeys rest).contains k) && nodupKeys c && nodupKeys rest
  | (k, Node.file _) :: rest => !((topKeys rest).contains k) && nodupKeys rest

/-- Well-formed Tree Model: dict-shaped with non-empty separator-free
keys at every level. -/
def wfTree (t : TreeM) : Bool :=
  treeKeysAll keyOK t && nodupKeys t

/-- A base path suitable for extending with `pjoin`: non-empty and not
ending in a separator (the target root name, and every chain path built
from it with well-formed keys, satisfies this). -/
def bInv (b : Str) : Prop :=
  b ≠ [] ∧ ¬ b.getLast? = some '/'

/-- Structural size of a Tree Model, used to derive an induction
principle over the nested children lists. -/
def sizeT : TreeM → Nat
  | [] => 0
  | (_, Node.dir c) :: rest => 1 + sizeT c + sizeT rest
  | (_, Node.file _) :: rest => 1 + sizeT rest

/-- Number of directory (mapping-valued) nodes in a Tree Model. -/
def countDirNodes : TreeM → Nat
  | [] => 0
  | (_, Node.dir c) :: rest => 1 + countDirNodes c + countDirNodes rest
  | (_, Node.file _) :: rest => countDirNodes rest

/-- Number of file (string-valued) nodes in a Tree Model. -/
def countFileNodes : TreeM → Nat
  | [] => 0
  | (_, Node.dir c) :: rest => countFileNodes c + countFileNodes rest
  | (_, Node.file _) :: rest => 1 + countFileNodes rest

/-- The cleaning rule exactly as claim C8 words it, for comparison with
the source's global substitution: remove only the leading glyph
sequence — each glyph together with its immediately following
whitespace — and keep the remainder of the line unchanged. -/
def stripLeadAux : Bool → Str → Str
  | _, [] => []
  | skipWS, c :: cs =>
    if skipWS && pyWhite c then stripLeadAux true cs
    else if treeGlyph c then stripLeadAux true cs
    else c :: cs

/-- Leading-only glyph stripping (the behavior claim C8 asserts). -/
def stripLeadGlyphs (s : Str) : Str :=
  stripLeadAux false s

/-- A filesystem state: the insertion-ordered, duplicate-free list of
directory paths and the mapping from file paths to contents.  The model
is lax: operations never fail (a real OS can raise on pathological
paths, which do not arise for the structures materialized here). -/
structure FS where
  dirs : List Str
  files : List (Str × Str)

/-- The empty filesystem (fresh target, nothing created yet). -/
def emptyFS : FS := ⟨[], []⟩

/-- Record a directory path (a set-like insert: creating an existing
directory with exist_ok is a no-op). -/
def insertD (l : List Str) (p : Str) : List Str :=
  if p ∈ l then l else l ++ [p]

/-- Lookup of a file's content by path. -/
def lookupF : List (Str × Str) → Str → Option Str
  | [], _ => none
  | (k, v) :: rest, q => if k = q then some v else lookupF rest q

/-- File write: truncate/overwrite in place, or create at the end. -/
def setF : List (Str × Str) → Str → Str → List (Str × Str)
  | [], k, v => [(k, v)]
  | (k', v') :: rest, k, v =>
    if k' = k then (k, v) :: rest else (k', v') :: setF rest k v

/-- os.path.exists: a path exists if it is a directory or a file. -/
def fsExists (fs : FS) (p : Str) : Bool :=
  fs.dirs.contains p || (lookupF fs.files p).isSome

/-- os.path.join for one component (POSIX): an absolute second component
wins; an empty base contributes nothing; a separator is inserted unless
the base already ends with one. -/
def pjoin (b n : Str) : Str :=
  if n.head? = some '/' then n
  else if b = [] then n
  else if b.getLast? = some '/' then b ++ n
  else b ++ '/' :: n

/-- os.path.split (POSIX): the tail is everything after the last
separator; the head keeps trailing separators only when it consists of
nothing else. -/
def psplit (p : Str) : Str × Str :=
  let tail := (p.reverse.takeWhile (fun c => !(c = '/'))).reverse
  let rawh := p.take (p.length - tail.length)
  if rawh ≠ [] ∧ ¬ rawh.all (fun c => c = '/')
  then ((rawh.reverse.dropWhile (fun c => c = '/')).reverse, tail)
  else (rawh, tail)

/-- The head/tail pair os.makedirs works on: os.path.split, re-split
once when the tail is empty (`if not tail: head, tail = split(head)`). -/
def psplit2 (p : Str) : Str × Str :=
  if (psplit p).2 = [] then psplit (psplit p).1 else psplit p

/-- os.makedirs(path, exist_ok=True), run with a fuel that bounds the
recursion depth (the recursive call is on a strictly shorter head, so
`p.length` fuel always suffices; on exhausted fuel the ancestor step is
skipped exactly as when the guard fails). -/
def mkdirsF : Nat → FS → Str → FS
  | 0, fs, p => { fs with dirs := insertD fs.dirs p }
  | fuel + 1, fs, p =>
    let pr := psplit2 p
    let fs1 :=
      if pr.1 ≠ [] ∧ pr.2 ≠ [] ∧ fsExists fs pr.1 = false then
        mkdirsF fuel fs pr.1
      else fs
    { fs1 with dirs := insertD fs1.dirs p }

/-- os.makedirs(path, exist_ok=True): ensure the ancestors given by
os.path.split exist, then record the directory itself. -/
def mkdirs (fs : FS) (p : Str) : FS :=
  mkdirsF p.length fs p

/-- The Materializer `create_structure`: depth-first walk of a Tree
Model under a base path.  Mappings become directories (os.makedirs with
exist_ok) and are recursed into; strings become files, with the parent
directory ensured when it does not exist yet, then the content written
(`content or ''` equals the stored string either way). -/
def create_structure (fs : FS) (base : Str) : TreeM → FS
  | [] => fs
  | (name, Node.dir c) :: rest =>
    let p := pjoin base name
    create_structure (create_structure (mkdirs fs p) p c) base rest
  | (name, Node.file s) :: rest =>
    let p := pjoin base name
    let parent := (psplit p).1
    let fs1 :=
      if parent ≠ [] ∧ fsExists fs parent = false then mkdirs fs parent else fs
    create_structure { fs1 with files := setF fs1.files p s } base rest

/-- Left-biased choice on optional file contents. -/
def oor : Option Str → Option Str → Option Str
  | some x, _ => some x
  | none, y => y

/-- The content that the Materializer's traversal of `t` under `base`
last writes at path `p`, as a pure function (later writes win). -/
def ffind (base : Str) (t : TreeM) (p : Str) : Option Str :=
  match t with
  | [] => none
  | (n, Node.dir c) :: rest => oor (ffind base rest p) (ffind (pjoin base n) c p)
  | (n, Node.file s) :: rest =>
    oor (ffind base rest p) (if pjoin base n = p then some s else none)

/-- The directory paths the Materializer opens for the mapping nodes of
a Tree Model (depth-first, parents before children). -/
def dlist (base : Str) : TreeM → List Str
  | [] => []
  | (n, Node.dir c) :: rest => pjoin base n :: (dlist (pjoin base n) c ++ dlist base rest)
  | (_, Node.file _) :: rest => dlist base rest

/-- The (path, content) writes the Materializer performs for the file
nodes of a Tree Model, in traversal order. -/
def flist (base : Str) : TreeM → List (Str × Str)
  | [] => []
  | (n, Node.dir c) :: rest => flist (pjoin base n) c ++ flist base rest
  | (n, Node.file s) :: rest => (pjoin base n, s) :: flist base rest

/-- The final summary's folder count: os.walk from the target root
tallies every directory strictly below the root once (the root itself is
never listed among any dirnames); with every created directory lying
below the root, this equals counting the recorded directory paths that
properly extend root followed by a separator. -/
def countFoldersReport (fs : FS) (root : Str) : Nat :=
  (fs.dirs.filter (fun p => lstarts (root ++ ['/']) p)).length

/-- The final summary's file count: os.walk tallies every file below the
root. -/
def countFilesReport (fs : FS) (root : Str) : Nat :=
  (fs.files.filter (fun e => lstarts (root ++ ['/']) e.1)).length


/-! ### Basic lemmas about the dictionary model -/

theorem getKey_setKey_self (t : TreeM) (k : Str) (v : Node) :
    getKey (setKey t k v) k = some v := by
  induction t with
  | nil => simp [setKey, getKey]
  | cons e rest ih =>
    obtain ⟨k', v'⟩ := e
    by_cases h : k' = k <;> simp [setKey, getKey, h, ih]

theorem getKey_setKey_ne (t : TreeM) (k k' : Str) (v : Node) (h : ¬ k' = k) :
    getKey (setKey t k v) k' = getKey t k' := by
  induction t with
  | nil => simp [setKey, getKey, Ne.symm h]
  | cons e rest ih =>
    obtain ⟨k'', v''⟩ := e
    by_cases h2 : k'' = k
    · subst h2
      simp [setKey, getKey, Ne.symm h]
    · by_cases h3 : k'' = k' <;> simp [setKey, getKey, h2, h3, ih, h]

theorem containsKey_iff (t : TreeM) (k : Str) :
    containsKey t k = true ↔ ∃ v, getKey t k = some v := by
  simp [containsKey, Option.isSome_iff_exists]

theorem exceptMap_ok {α β : Type} (f : α → β) (e : Except Unit α) (b : β) :
    e.map f = .ok b ↔ ∃ a, e = .ok a ∧ f a = b := by
  cases e <;> simp [Except.map]

theorem follow_updateAt :
    ∀ (p : List Str) (r m : TreeM) (f : TreeM → TreeM),
      follow r p = some m → follow (updateAt r p f) p = some (f m) := by
  intro p
  induction p with
  | nil =>
    intro r m f h
    simp [follow] at h
    simp [follow, updateAt, h]
  | cons a ps ih =>
    intro r m f h
    simp only [follow] at h
    cases hg : getKey r a with
    | none => rw [hg] at h; exact absurd h (by simp)
    | some v =>
      cases v with
      | file s => rw [hg] at h; exact absurd h (by simp)
      | dir c =>
        rw [hg] at h
        simp only [updateAt, hg, follow, getKey_setKey_self]
        exact ih c m f h

theorem follow_append :
    ∀ (xs ys : List Str) (r : TreeM),
      follow r (xs ++ ys) = (follow r xs).bind (fun m => follow m ys) := by
  intro xs
  induction xs with
  | nil => intro ys r; simp [follow]
  | cons a xs ih =>
    intro ys r
    simp only [List.cons_append, follow]
    cases hg : getKey r a with
    | none => simp
    | some v =>
      cases v with
      | file s => simp
      | dir c => exact ih ys c

/-! ### Lemmas about the string helpers -/

theorem splitChar_ne_nil (sep : Char) (s : Str) : splitChar sep s ≠ [] := by
  cases s with
  | nil => simp [splitChar]
  | cons c cs =>
    simp only [splitChar]
    cases h : splitChar sep cs with
    | nil => simp
    | cons r rs => by_cases hc : c = sep <;> simp [hc]

theorem splitChar_chars :
    ∀ (s seg : Str), seg ∈ splitChar '/' s → ∀ c ∈ seg, c ∈ s ∧ ¬ c = '/' := by
  intro s
  induction s with
  | nil =>
    intro seg hseg c hc
    simp [splitChar] at hseg
    subst hseg
    exact absurd hc (by simp)
  | cons c0 cs ih =>
    intro seg hseg c hc
    simp only [splitChar] at hseg
    cases hsc : splitChar '/' cs with
    | nil => exact absurd hsc (splitChar_ne_nil _ _)
    | cons r rs =>
      rw [hsc] at hseg
      dsimp only at hseg
      by_cases h0 : c0 = '/'
      · rw [if_pos h0, List.mem_cons] at hseg
        rcases hseg with h | h
        · subst h; exact absurd hc (by simp)
        · have := ih seg (by rw [hsc]; exact h) c hc
          exact ⟨List.mem_cons_of_mem _ this.1, this.2⟩
      · rw [if_neg h0, List.mem_cons] at hseg
        rcases hseg with h | h
        · subst h
          rw [List.mem_cons] at hc
          rcases hc with hc0 | hmem
          · subst hc0; exact ⟨List.mem_cons_self _ _, h0⟩
          · have := ih r (by rw [hsc]; exact List.mem_cons_self _ _) c hmem
            exact ⟨List.mem_cons_of_mem _ this.1, this.2⟩
        · have := ih seg (by rw [hsc]; exact List.mem_cons_of_mem _ h) c hc
          exact ⟨List.mem_cons_of_mem _ this.1, this.2⟩

theorem getLastD_mem {α : Type} (l : List α) (d : α) (h : l ≠ []) :
    l.getLastD d ∈ l := by
  induction l generalizing d with
  | nil => exact absurd rfl h
  | cons a l ih =>
    rw [List.getLastD_cons]
    cases l with
    | nil => simp
    | cons b l' => exact List.mem_cons_of_mem _ (ih a (by simp))

theorem mem_pstrip {c : Char} {s : Str} (h : c ∈ pstrip s) : c ∈ s := by
  unfold pstrip at h
  rw [List.mem_reverse] at h
  have h2 := (List.dropWhile_sublist pyWhite).mem h
  rw [List.mem_reverse] at h2
  exact (List.dropWhile_sublist pyWhite).mem h2

theorem mem_prstrip {c : Char} {s : Str} (h : c ∈ prstrip s) : c ∈ s := by
  unfold prstrip at h
  rw [List.mem_reverse] at h
  have h2 := (List.dropWhile_sublist pyWhite).mem h
  rw [List.mem_reverse] at h2
  exact h2

theorem dot_mem_replaceGlyphs {s : Str} (h : ('.' : Char) ∈ replaceGlyphs s) :
    ('.' : Char) ∈ s := by
  unfold replaceGlyphs at h
  rcases List.mem_map.mp h with ⟨d, hd, hfd⟩
  by_cases hg : treeGlyph d = true
  · rw [if_pos hg] at hfd; exact absurd hfd (by decide)
  · rw [if_neg hg] at hfd; rw [hfd] at hd; exact hd

theorem contains_false_iff (l : Str) (c : Char) :
    l.contains c = false ↔ c ∉ l := by
  rw [show l.contains c = l.elem c from rfl]
  constructor
  · intro h hmem
    rw [List.elem_iff.mpr hmem] at h
    cases h
  · intro h
    cases he : l.elem c
    · rfl
    · exact absurd (List.elem_iff.mp he) h

/-! ### Claim C1: totality of the Path Parser -/

theorem noFilesT_setKey {t c : TreeM} {k : Str}
    (ht : noFilesT t = true) (hc : noFilesT c = true) :
    noFilesT (setKey t k (.dir c)) = true := by
  induction t with
  | nil => simp [setKey, noFilesT, hc]
  | cons e rest ih =>
    obtain ⟨k', v'⟩ := e
    cases v' with
    | file s => exact absurd ht (by simp [noFilesT])
    | dir c' =>
      rw [noFilesT] at ht
      rcases Bool.and_eq_true_iff.mp ht with ⟨h1, h2⟩
      by_cases hk : k' = k
      · simp [setKey, hk, noFilesT, hc, h2]
      · simp [setKey, hk, noFilesT, h1, ih h2]

theorem noFilesT_getKey {t : TreeM} {k : Str} {v : Node}
    (ht : noFilesT t = true) (h : getKey t k = some v) :
    ∃ c, v = Node.dir c ∧ noFilesT c = true := by
  induction t with
  | nil => simp [getKey] at h
  | cons e rest ih =>
    obtain ⟨k', v'⟩ := e
    cases v' with
    | file s => exact absurd ht (by simp [noFilesT])
    | dir c' =>
      rw [noFilesT] at ht
      rcases Bool.and_eq_true_iff.mp ht with ⟨h1, h2⟩
      rw [getKey] at h
      by_cases hk : k' = k
      · rw [if_pos hk] at h
        exact ⟨c', (Option.some.inj h).symm, h1⟩
      · rw [if_neg hk] at h
        exact ih h2 h

theorem insertParts_noFiles :
    ∀ (parts : List Str) (t : TreeM), noFilesT t = true →
      ∃ t', insertParts t parts false = .ok t' ∧ noFilesT t' = true := by
  intro parts
  induction parts with
  | nil => intro t ht; exact ⟨t, rfl, ht⟩
  | cons p tail ih =>
    intro t ht
    cases tail with
    | nil =>
      cases hck : containsKey t p
      · exact ⟨setKey t p (.dir []), by simp [insertParts, hck], noFilesT_setKey ht (by simp [noFilesT])⟩
      · exact ⟨t, by simp [insertParts, hck], ht⟩
    | cons q rest =>
      cases hg : getKey t p with
      | none =>
        obtain ⟨c', hc', hnf⟩ := ih [] (by simp [noFilesT])
        refine ⟨setKey t p (.dir c'), ?_, noFilesT_setKey ht hnf⟩
        simp [insertParts, hg, hc', Except.map]
      | some v =>
        obtain ⟨c, hv, hnfc⟩ := noFilesT_getKey ht hg
        subst hv
        obtain ⟨c', hc', hnf⟩ := ih c hnfc
        refine ⟨setKey t p (.dir c'), ?_, noFilesT_setKey ht hnf⟩
        simp [insertParts, hg, hc', Except.map]

theorem processClean_noDot {t : TreeM} {clean : Str}
    (hd : clean.contains '.' = false) (ht : noFilesT t = true) :
    ∃ t', processClean t clean = .ok t' ∧ noFilesT t' = true := by
  unfold processClean
  cases hs : clean.contains '/'
  · rw [hd]
    cases hck : containsKey t clean
    · exact ⟨setKey t clean (.dir []), by simp [hs, hck], noFilesT_setKey ht (by simp [noFilesT])⟩
    · exact ⟨t, by simp [hs, hck], ht⟩
  · have hlast : ((splitChar '/' clean).getLastD []).contains '.' = false := by
      rw [contains_false_iff]
      intro hmem
      have hm := getLastD_mem (splitChar '/' clean) [] (splitChar_ne_nil _ _)
      have := (splitChar_chars clean _ hm '.' hmem).1
      exact (contains_false_iff clean '.').mp hd this
    simp only [hs, hlast, if_true]
    exact insertParts_noFiles _ t ht

theorem processLine_noDot {t : TreeM} {l : Str}
    (hl : l.contains '.' = false) (ht : noFilesT t = true) :
    ∃ t', processLine t l = .ok t' ∧ noFilesT t' = true := by
  unfold processLine
  by_cases h1 : prstrip l = []
  · exact ⟨t, by simp [h1], ht⟩
  · rw [if_neg h1]
    by_cases h2 : pstrip (replaceGlyphs (prstrip l)) = []
    · exact ⟨t, by simp [h2], ht⟩
    · rw [if_neg h2]
      refine processClean_noDot ?_ ht
      rw [contains_false_iff]
      intro hmem
      have := mem_prstrip (dot_mem_replaceGlyphs (mem_pstrip hmem))
      exact (contains_false_iff l '.').mp hl this

theorem foldlM_noDot :
    ∀ (lines : List Str) (t : TreeM), noFilesT t = true →
      (∀ l ∈ lines, l.contains '.' = false) →
      ∃ t', List.foldlM processLine t lines = .ok t' ∧ noFilesT t' = true := by
  intro lines
  induction lines with
  | nil => intro t ht _; exact ⟨t, rfl, ht⟩
  | cons l ls ih =>
    intro t ht hall
    obtain ⟨t1, h1, hnf1⟩ := processLine_noDot (hall l (List.mem_cons_self _ _)) ht
    obtain ⟨t', h', hnf'⟩ := ih t1 hnf1 (fun x hx => hall x (List.mem_cons_of_mem _ hx))
    refine ⟨t', ?_, hnf'⟩
    rw [List.foldlM_cons, h1]
    exact h'

/-- Claim C1 (amended): `parse_folder_structure` is not total — a line
that reuses a name recorded as a file as an intermediate path segment
makes the walk index or assign into a string and raises a TypeError
(see the counterexample) — but it does return the root mapping without
raising on every input whose lines contain no dot, since then no file
entry is ever created and the walk only meets mappings. -/
theorem c1_path_parser_totality (text : String)
    (h : ∀ l ∈ splitChar '\n' (pstrip text.data), l.contains '.' = false) :
    ∃ t, parse_folder_structure text = .ok t := by
  obtain ⟨t', ht', _⟩ := foldlM_noDot _ [] (by simp [noFilesT]) h
  exact ⟨t', ht'⟩

theorem c1_witness :
    (∀ l ∈ splitChar '\n' (pstrip "a/b\nc".data), l.contains '.' = false) ∧
      ∃ t, parse_folder_structure "a/b\nc" = .ok t :=
  ⟨by decide, c1_path_parser_totality "a/b\nc" (by decide)⟩

/-- Claim C1 counterexample: the input that reuses `a.txt` — first
recorded as a file — as an intermediate path segment of a later line
raises a TypeError (the claim asserts no input raises). -/
theorem c1_counterexample :
    parse_folder_structure "a.txt\na.txt/b" = .error () := by rfl

/-! ### Claim C2: asymmetric handling of the final path segment -/

theorem getKey_none_of_not_contains {t : TreeM} {k : Str}
    (h : containsKey t k = false) : getKey t k = none := by
  unfold containsKey at h
  cases hg : getKey t k
  · rfl
  · rw [hg] at h; cases h

theorem insertParts_cons_ne_nil (t : TreeM) (p : Str) (l : List Str) (isF : Bool)
    (h : l ≠ []) :
    insertParts t (p :: l) isF =
      match getKey t p with
      | some (.dir c) => (insertParts c l isF).map (fun c' => setKey t p (.dir c'))
      | some (.file s) => (strParts s l isF).map (fun _ => t)
      | none => (insertParts [] l isF).map (fun c' => setKey t p (.dir c')) := by
  cases l with
  | nil => exact absurd rfl h
  | cons q rest => rfl

/-- Claim C2: for every processed line the final path segment is handled
asymmetrically.  On the slash walk, whatever mapping the walk ends in: a
file classification always stores the empty string, overwriting any
previous value, while a directory classification keeps an existing value
of either kind and creates an empty mapping only when the name is
absent.  Lines without a slash receive the same asymmetric treatment
directly at the root mapping. -/
theorem c2_last_segment_asymmetry :
    (∀ (ps : List Str) (t t' m' : TreeM) (lastSeg : Str) (isF : Bool),
        insertParts t (ps ++ [lastSeg]) isF = .ok t' →
        follow t' ps = some m' →
        getKey m' lastSeg =
          some (if isF then Node.file []
                else (((follow t ps).bind (fun m => getKey m lastSeg)).getD (Node.dir [])))) ∧
    (∀ (t t' : TreeM) (clean : Str),
        clean.contains '/' = false →
        processClean t clean = .ok t' →
        getKey t' clean =
          some (if clean.contains '.' then Node.file []
                else ((getKey t clean).getD (Node.dir [])))) := by
  constructor
  · intro ps
    induction ps with
    | nil =>
      intro t t' m' lastSeg isF hins hfol
      simp only [List.nil_append] at hins
      simp only [follow, Option.some.injEq] at hfol
      subst hfol
      cases isF
      · cases hck : containsKey t lastSeg
        · simp only [insertParts, Bool.false_eq_true, if_false, hck, Except.ok.injEq] at hins
          subst hins
          rw [getKey_setKey_self]
          simp [follow, getKey_none_of_not_contains hck]
        · simp only [insertParts, Bool.false_eq_true, if_false, hck, if_true,
            Except.ok.injEq] at hins
          subst hins
          obtain ⟨v, hv⟩ := (containsKey_iff t lastSeg).mp hck
          simp [follow, hv]
      · simp only [insertParts, if_true, Except.ok.injEq] at hins
        subst hins
        rw [getKey_setKey_self]
        simp
    | cons p ps ih =>
      intro t t' m' lastSeg isF hins hfol
      rw [List.cons_append,
        insertParts_cons_ne_nil t p (ps ++ [lastSeg]) isF (by simp)] at hins
      cases hg : getKey t p with
      | some v =>
        cases v with
        | dir c =>
          rw [hg] at hins
          dsimp only at hins
          rw [exceptMap_ok] at hins
          obtain ⟨c', hc', ht'⟩ := hins
          subst ht'
          simp only [follow, getKey_setKey_self] at hfol
          have hrec := ih c c' m' lastSeg isF hc' hfol
          rw [hrec]
          simp only [follow, hg]
        | file s =>
          rw [hg] at hins
          dsimp only at hins
          rw [exceptMap_ok] at hins
          obtain ⟨u, hu, ht'⟩ := hins
          subst ht'
          simp only [follow, hg] at hfol
          cases hfol
      | none =>
        rw [hg] at hins
        dsimp only at hins
        rw [exceptMap_ok] at hins
        obtain ⟨c', hc', ht'⟩ := hins
        subst ht'
        simp only [follow, getKey_setKey_self] at hfol
        have hrec := ih [] c' m' lastSeg isF hc' hfol
        rw [hrec]
        cases isF
        · simp only [Bool.false_eq_true, if_false, Option.some.injEq]
          have h1 : (follow t (p :: ps)).bind (fun m => getKey m lastSeg) = none := by
            simp [follow, hg]
          have h2 : (follow [] ps).bind (fun m => getKey m lastSeg) = none := by
            cases ps with
            | nil => simp [follow, getKey]
            | cons a ps' => simp [follow, getKey]
          rw [h1, h2]
        · rfl
  · intro t t' clean hs hpc
    unfold processClean at hpc
    simp only [hs, Bool.false_eq_true, if_false] at hpc
    cases hd : clean.contains '.'
    · rw [hd] at hpc
      simp only [Bool.false_eq_true, if_false] at hpc
      cases hck : containsKey t clean
      · rw [hck] at hpc
        simp only [Bool.false_eq_true, if_false, Except.ok.injEq] at hpc
        subst hpc
        rw [getKey_setKey_self, getKey_none_of_not_contains hck]
        simp [hd]
      · rw [hck] at hpc
        simp only [if_true, Except.ok.injEq] at hpc
        subst hpc
        obtain ⟨v, hv⟩ := (containsKey_iff t clean).mp hck
        simp [hd, hv]
    · rw [hd] at hpc
      simp only [if_true, Except.ok.injEq] at hpc
      subst hpc
      rw [getKey_setKey_self]
      simp [hd]

theorem c2_witness :
    getKey [("b.txt".data, Node.file [])] "b.txt".data =
      some (if true then Node.file []
            else (((follow [] ["a".data]).bind
              (fun m => getKey m "b.txt".data)).getD (Node.dir []))) ∧
    getKey [("c".data, Node.dir [("z".data, Node.file [])])] "c".data =
      some (if ("c".data).contains '.' then Node.file []
            else ((getKey [("c".data, Node.dir [("z".data, Node.file [])])]
              "c".data).getD (Node.dir []))) :=
  ⟨c2_last_segment_asymmetry.1 ["a".data]
      [] [("a".data, Node.dir [("b.txt".data, Node.file [])])]
      [("b.txt".data, Node.file [])] "b.txt".data true rfl rfl,
   c2_last_segment_asymmetry.2
      [("c".data, Node.dir [("z".data, Node.file [])])]
      [("c".data, Node.dir [("z".data, Node.file [])])] "c".data rfl rfl⟩

/-! ### Claim C3: collision overwrite semantics of the two parsers -/

/-- Claim C3 (amended): in the Indent Parser the later declaration
always wins in both directions — a directory line replaces an existing
file entry at the current level with a fresh empty mapping, and a file
line replaces an existing directory entry with the empty string.  In
the Path Parser only one direction holds: a later file declaration
replaces an existing directory entry, but a later directory declaration
never replaces an existing file entry (the entry is left untouched). -/
theorem c3_collision_overwrites :
    (∀ (s : PTState) (line : Str) (m : TreeM) (x : Str),
        ¬ pstrip line = [] → ¬ cleanT line = [] →
        isDirLine (cleanT line) = true →
        follow s.root (popLoop s.path (indentOf line)) = some m →
        getKey m (rstripSlash (cleanT line)) = some (Node.file x) →
        follow (stepLine s line).root (popLoop s.path (indentOf line)) =
            some (setKey m (rstripSlash (cleanT line)) (Node.dir [])) ∧
          getKey (setKey m (rstripSlash (cleanT line)) (Node.dir []))
            (rstripSlash (cleanT line)) = some (Node.dir [])) ∧
    (∀ (s : PTState) (line : Str) (m c : TreeM),
        ¬ pstrip line = [] → ¬ cleanT line = [] →
        isDirLine (cleanT line) = false →
        follow s.root (popLoop s.path (indentOf line)) = some m →
        getKey m (cleanT line) = some (Node.dir c) →
        follow (stepLine s line).root (popLoop s.path (indentOf line)) =
            some (setKey m (cleanT line) (Node.file [])) ∧
          getKey (setKey m (cleanT line) (Node.file [])) (cleanT line) =
            some (Node.file [])) ∧
    (∀ (t : TreeM) (clean : Str) (c : TreeM),
        clean.contains '/' = false → clean.contains '.' = true →
        getKey t clean = some (Node.dir c) →
        processClean t clean = .ok (setKey t clean (Node.file []))) ∧
    (∀ (t : TreeM) (clean x : Str),
        clean.contains '/' = false → clean.contains '.' = false →
        getKey t clean = some (Node.file x) →
        processClean t clean = .ok t) := by
  refine ⟨?_, ?_, ?_, ?_⟩
  · intro s line m x h1 h2 h3 h4 _
    have hstep : (stepLine s line).root =
        updateAt s.root (popLoop s.path (indentOf line))
          (fun lvl => setKey lvl (rstripSlash (cleanT line)) (Node.dir [])) := by
      simp [stepLine, h1, h2, h3]
    rw [hstep]
    exact ⟨follow_updateAt _ _ _ _ h4, getKey_setKey_self _ _ _⟩
  · intro s line m c h1 h2 h3 h4 _
    have hstep : (stepLine s line).root =
        updateAt s.root (popLoop s.path (indentOf line))
          (fun lvl => setKey lvl (cleanT line) (Node.file [])) := by
      simp [stepLine, h1, h2, h3]
    rw [hstep]
    exact ⟨follow_updateAt _ _ _ _ h4, getKey_setKey_self _ _ _⟩
  · intro t clean c hs hd _
    have hs' : ('/' : Char) ∉ clean := (contains_false_iff _ _).mp hs
    have hd' : ('.' : Char) ∈ clean := List.elem_iff.mp hd
    unfold processClean
    simp [hs', hd']
  · intro t clean x hs hd hg
    have hck : containsKey t clean = true := by
      unfold containsKey
      rw [hg]
      rfl
    have hs' : ('/' : Char) ∉ clean := (contains_false_iff _ _).mp hs
    have hd' : ('.' : Char) ∉ clean := (contains_false_iff _ _).mp hd
    unfold processClean
    simp [hs', hd', hck]

/-- Claim C3 counterexample: in the Path Parser, after `a.txt` is
recorded as a file, the later line `a.txt/` declares a directory at the
same root-level name, yet the final mapping still holds the file — the
later declaration did not win. -/
theorem c3_counterexample :
    parse_folder_structure "a.txt\na.txt/" = .ok [("a.txt".data, Node.file [])] ∧
    ¬ getKey [("a.txt".data, Node.file [])] "a.txt".data = some (Node.dir []) := by
  constructor
  · rfl
  · intro h
    rw [show getKey [("a.txt".data, Node.file [])] "a.txt".data =
        some (Node.file []) from rfl] at h
    exact Node.noConfusion (Option.some.inj h)

theorem c3_witness :
    (follow (stepLine ⟨[("d".data, Node.file [])], []⟩ "d/".data).root
        (popLoop ([] : List Str) (indentOf "d/".data)) =
      some (setKey [("d".data, Node.file [])] (rstripSlash (cleanT "d/".data))
        (Node.dir [])) ∧
      getKey (setKey [("d".data, Node.file [])] (rstripSlash (cleanT "d/".data))
        (Node.dir [])) (rstripSlash (cleanT "d/".data)) = some (Node.dir [])) ∧
    (follow (stepLine ⟨[("n.c".data, Node.dir [])], []⟩ "n.c".data).root
        (popLoop ([] : List Str) (indentOf "n.c".data)) =
      some (setKey [("n.c".data, Node.dir [])] (cleanT "n.c".data)
        (Node.file [])) ∧
      getKey (setKey [("n.c".data, Node.dir [])] (cleanT "n.c".data)
        (Node.file [])) (cleanT "n.c".data) = some (Node.file [])) ∧
    processClean [("a.b".data, Node.dir [])] "a.b".data =
      .ok (setKey [("a.b".data, Node.dir [])] "a.b".data (Node.file [])) ∧
    processClean [("d".data, Node.file [])] "d".data =
      .ok [("d".data, Node.file [])] :=
  ⟨c3_collision_overwrites.1 ⟨[("d".data, Node.file [])], []⟩ "d/".data
      [("d".data, Node.file [])] [] (by decide) (by decide) (by decide) rfl rfl,
   c3_collision_overwrites.2.1 ⟨[("n.c".data, Node.dir [])], []⟩ "n.c".data
      [("n.c".data, Node.dir [])] [] (by decide) (by decide) (by decide) rfl rfl,
   c3_collision_overwrites.2.2.1 [("a.b".data, Node.dir [])] "a.b".data []
      (by decide) (by decide) rfl,
   c3_collision_overwrites.2.2.2 [("d".data, Node.file [])] "d".data []
      (by decide) (by decide) rfl⟩

/-! ### Claim C7: keys of the produced Tree Models -/

theorem except_bind_ok {α β : Type} (a : α) (f : α → Except Unit β) :
    (Except.ok a >>= f) = f a := rfl

theorem except_bind_err {α β : Type} (e : Unit) (f : α → Except Unit β) :
    ((Except.error e : Except Unit α) >>= f) = Except.error e := rfl

theorem treeKeysAll_setKey_file {kp : Str → Bool} {t : TreeM} {k s : Str}
    (ht : treeKeysAll kp t = true) (hk : kp k = true) :
    treeKeysAll kp (setKey t k (.file s)) = true := by
  induction t with
  | nil => simp [setKey, treeKeysAll, hk]
  | cons e rest ih =>
    obtain ⟨k', v'⟩ := e
    cases v' with
    | file s' =>
      rw [treeKeysAll] at ht
      rcases Bool.and_eq_true_iff.mp ht with ⟨h1, h2⟩
      by_cases hkk : k' = k
      · simp [setKey, hkk, treeKeysAll, hk, h2]
      · simp [setKey, hkk, treeKeysAll, h1, ih h2]
    | dir c' =>
      rw [treeKeysAll] at ht
      rcases Bool.and_eq_true_iff.mp ht with ⟨h12, h3⟩
      rcases Bool.and_eq_true_iff.mp h12 with ⟨h1, h2⟩
      by_cases hkk : k' = k
      · simp [setKey, hkk, treeKeysAll, hk, h3]
      · simp [setKey, hkk, treeKeysAll, h1, h2, ih h3]

theorem treeKeysAll_setKey_dir {kp : Str → Bool} {t c : TreeM} {k : Str}
    (ht : treeKeysAll kp t = true) (hk : kp k = true)
    (hc : treeKeysAll kp c = true) :
    treeKeysAll kp (setKey t k (.dir c)) = true := by
  induction t with
  | nil => simp [setKey, treeKeysAll, hk, hc]
  | cons e rest ih =>
    obtain ⟨k', v'⟩ := e
    cases v' with
    | file s' =>
      rw [treeKeysAll] at ht
      rcases Bool.and_eq_true_iff.mp ht with ⟨h1, h2⟩
      by_cases hkk : k' = k
      · simp [setKey, hkk, treeKeysAll, hk, hc, h2]
      · simp [setKey, hkk, treeKeysAll, h1, ih h2]
    | dir c' =>
      rw [treeKeysAll] at ht
      rcases Bool.and_eq_true_iff.mp ht with ⟨h12, h3⟩
      rcases Bool.and_eq_true_iff.mp h12 with ⟨h1, h2⟩
      by_cases hkk : k' = k
      · simp [setKey, hkk, treeKeysAll, hk, hc, h3]
      · simp [setKey, hkk, treeKeysAll, h1, h2, ih h3]

theorem treeKeysAll_getKey_dir {kp : Str → Bool} {t c : TreeM} {k : Str}
    (ht : treeKeysAll kp t = true) (h : getKey t k = some (.dir c)) :
    treeKeysAll kp c = true := by
  induction t with
  | nil => simp [getKey] at h
  | cons e rest ih =>
    obtain ⟨k', v'⟩ := e
    rw [getKey] at h
    by_cases hkk : k' = k
    · rw [if_pos hkk] at h
      cases v' with
      | file s' => cases h
      | dir c' =>
        have : c' = c := by
          have := Option.some.inj h
          exact Node.dir.inj this
        subst this
        rw [treeKeysAll] at ht
        exact (Bool.and_eq_true_iff.mp (Bool.and_eq_true_iff.mp ht).1).2
    · rw [if_neg hkk] at h
      cases v' with
      | file s' =>
        rw [treeKeysAll] at ht
        exact ih (Bool.and_eq_true_iff.mp ht).2 h
      | dir c' =>
        rw [treeKeysAll] at ht
        exact ih (Bool.and_eq_true_iff.mp ht).2 h

theorem insertParts_keys {kp : Str → Bool} :
    ∀ (parts : List Str) (t t' : TreeM) (isF : Bool),
      treeKeysAll kp t = true → (∀ pp ∈ parts, kp pp = true) →
      insertParts t parts isF = .ok t' → treeKeysAll kp t' = true := by
  intro parts
  induction parts with
  | nil =>
    intro t t' isF ht _ h
    injection h with h
    subst h
    exact ht
  | cons p tail ih =>
    intro t t' isF ht hall hins
    have hp : kp p = true := hall p (List.mem_cons_self _ _)
    cases tail with
    | nil =>
      cases isF
      · cases hck : containsKey t p
        · simp only [insertParts, Bool.false_eq_true, if_false, hck,
            Except.ok.injEq] at hins
          subst hins
          exact treeKeysAll_setKey_dir ht hp (by simp [treeKeysAll])
        · simp only [insertParts, Bool.false_eq_true, if_false, hck, if_true,
            Except.ok.injEq] at hins
          subst hins
          exact ht
      · simp only [insertParts, if_true, Except.ok.injEq] at hins
        subst hins
        exact treeKeysAll_setKey_file ht hp
    | cons q2 rest =>
      rw [insertParts_cons_ne_nil t p (q2 :: rest) isF (by simp)] at hins
      cases hg : getKey t p with
      | some v =>
        cases v with
        | dir c =>
          rw [hg] at hins
          dsimp only at hins
          rw [exceptMap_ok] at hins
          obtain ⟨c', hc', ht'⟩ := hins
          subst ht'
          exact treeKeysAll_setKey_dir ht hp
            (ih c c' isF (treeKeysAll_getKey_dir ht hg)
              (fun x hx => hall x (List.mem_cons_of_mem _ hx)) hc')
        | file s =>
          rw [hg] at hins
          dsimp only at hins
          rw [exceptMap_ok] at hins
          obtain ⟨u, hu, ht'⟩ := hins
          subst ht'
          exact ht
      | none =>
        rw [hg] at hins
        dsimp only at hins
        rw [exceptMap_ok] at hins
        obtain ⟨c', hc', ht'⟩ := hins
        subst ht'
        exact treeKeysAll_setKey_dir ht hp
          (ih [] c' isF (by simp [treeKeysAll])
            (fun x hx => hall x (List.mem_cons_of_mem _ hx)) hc')

theorem processClean_keys {t t' : TreeM} {clean : Str}
    (ht : treeKeysAll noSlashKey t = true)
    (hpc : processClean t clean = .ok t') :
    treeKeysAll noSlashKey t' = true := by
  by_cases hs : ('/' : Char) ∈ clean
  · simp [processClean, hs] at hpc
    exact insertParts_keys _ t t' _ ht
      (fun seg hseg => by
        rw [noSlashKey, List.all_eq_true]
        intro c hc
        simp [(splitChar_chars clean seg hseg c hc).2]) hpc
  · have hclean : noSlashKey clean = true := by
      rw [noSlashKey, List.all_eq_true]
      intro c hc
      have : ¬ c = '/' := fun hc2 => hs (hc2 ▸ hc)
      simp [this]
    simp only [processClean] at hpc
    rw [show clean.contains '/' = false from
      (contains_false_iff clean '/').mpr hs] at hpc
    simp only [Bool.false_eq_true, if_false] at hpc
    cases hd : clean.contains '.'
    · rw [hd] at hpc
      simp only [Bool.false_eq_true, if_false] at hpc
      cases hck : containsKey t clean
      · rw [hck] at hpc
        simp only [Bool.false_eq_true, if_false, Except.ok.injEq] at hpc
        subst hpc
        exact treeKeysAll_setKey_dir ht hclean (by simp [treeKeysAll])
      · rw [hck] at hpc
        simp only [if_true, Except.ok.injEq] at hpc
        subst hpc
        exact ht
    · rw [hd] at hpc
      simp only [if_true, Except.ok.injEq] at hpc
      subst hpc
      exact treeKeysAll_setKey_file ht hclean

theorem processLine_keys {t t' : TreeM} {l : Str}
    (ht : treeKeysAll noSlashKey t = true)
    (h : processLine t l = .ok t') :
    treeKeysAll noSlashKey t' = true := by
  unfold processLine at h
  by_cases h1 : prstrip l = []
  · rw [if_pos h1] at h
    injection h with h
    subst h
    exact ht
  · rw [if_neg h1] at h
    by_cases h2 : pstrip (replaceGlyphs (prstrip l)) = []
    · rw [if_pos h2] at h
      injection h with h
      subst h
      exact ht
    · rw [if_neg h2] at h
      exact processClean_keys ht h

theorem foldlM_keys :
    ∀ (lines : List Str) (t0 t : TreeM),
      treeKeysAll noSlashKey t0 = true →
      List.foldlM processLine t0 lines = .ok t →
      treeKeysAll noSlashKey t = true := by
  intro lines
  induction lines with
  | nil =>
    intro t0 t ht h
    injection h with h
    subst h
    exact ht
  | cons l ls ih =>
    intro t0 t ht h
    rw [List.foldlM_cons] at h
    cases he : processLine t0 l with
    | error e =>
      rw [he, except_bind_err] at h
      cases h
    | ok t1 =>
      rw [he, except_bind_ok] at h
      exact ih t1 t (processLine_keys ht he) h

/-- Claim C7 (amended): keys produced by the Path Parser never contain
the separator '/' — every key comes from a separator split or from a
line with no separator — but they are not always non-empty (a leading,
trailing or doubled slash yields an empty-named entry), and the Indent
Parser can even store keys containing '/' (a slash-bearing line whose
last segment has a dot is stored whole as a file name). -/
theorem c7_path_parser_key_separators (text : String) (t : TreeM)
    (h : parse_folder_structure text = .ok t) :
    treeKeysAll noSlashKey t = true :=
  foldlM_keys _ [] t (by simp [treeKeysAll]) h

theorem c7_witness :
    treeKeysAll noSlashKey [("a".data, Node.dir [("b.txt".data, Node.file [])])] =
      true :=
  c7_path_parser_key_separators "a/b.txt"
    [("a".data, Node.dir [("b.txt".data, Node.file [])])] rfl

/-- Claim C7 counterexample: the Path Parser input `/b` stores an entry
under the empty name (violating non-emptiness), and the Indent Parser
input `x/y` stores a key containing the separator. -/
theorem c7_counterexample :
    parse_folder_structure "/b" = .ok [([], Node.dir [("b".data, Node.dir [])])] ∧
    treeKeysAll keyOK [([], Node.dir [("b".data, Node.dir [])])] = false ∧
    parse_tree_structure "x/y" = [("x/y".data, Node.file [])] ∧
    treeKeysAll keyOK [("x/y".data, Node.file [])] = false := by
  refine ⟨rfl, ?_, rfl, ?_⟩
  · simp only [treeKeysAll]
    decide
  · simp only [treeKeysAll]
    decide

/-! ### Claim C4: the Indent Parser's per-line actions -/

theorem stepLine_dir {s : PTState} {line : Str}
    (h1 : ¬ pstrip line = []) (h2 : ¬ cleanT line = [])
    (h3 : isDirLine (cleanT line) = true) :
    stepLine s line =
      ⟨updateAt s.root (popLoop s.path (indentOf line))
          (fun lvl => setKey lvl (rstripSlash (cleanT line)) (Node.dir [])),
        popLoop s.path (indentOf line) ++ [rstripSlash (cleanT line)]⟩ := by
  simp [stepLine, h1, h2, h3]

theorem stepLine_file {s : PTState} {line : Str}
    (h1 : ¬ pstrip line = []) (h2 : ¬ cleanT line = [])
    (h3 : isDirLine (cleanT line) = false) :
    stepLine s line =
      ⟨updateAt s.root (popLoop s.path (indentOf line))
          (fun lvl => setKey lvl (cleanT line) (Node.file [])),
        popLoop s.path (indentOf line)⟩ := by
  simp [stepLine, h1, h2, h3]

/-- Claim C4: a line classified as a directory unconditionally assigns a
fresh empty mapping at its slash-stripped name under the current
top-of-stack mapping — even when an entry with that name already exists,
so prior children are lost — and pushes that mapping; a line classified
as a file sets the empty string at its cleaned name and pushes
nothing. -/
theorem c4_indent_parser_line_actions (s : PTState) (line : Str) (m : TreeM)
    (h1 : ¬ pstrip line = []) (h2 : ¬ cleanT line = [])
    (h4 : follow s.root (popLoop s.path (indentOf line)) = some m) :
    (isDirLine (cleanT line) = true →
      (stepLine s line).path =
          popLoop s.path (indentOf line) ++ [rstripSlash (cleanT line)] ∧
        follow (stepLine s line).root (popLoop s.path (indentOf line)) =
          some (setKey m (rstripSlash (cleanT line)) (Node.dir [])) ∧
        getKey (setKey m (rstripSlash (cleanT line)) (Node.dir []))
          (rstripSlash (cleanT line)) = some (Node.dir [])) ∧
    (isDirLine (cleanT line) = false →
      (stepLine s line).path = popLoop s.path (indentOf line) ∧
        follow (stepLine s line).root (popLoop s.path (indentOf line)) =
          some (setKey m (cleanT line) (Node.file []))) := by
  constructor
  · intro h3
    rw [stepLine_dir h1 h2 h3]
    exact ⟨rfl, follow_updateAt _ _ _ _ h4, getKey_setKey_self _ _ _⟩
  · intro h3
    rw [stepLine_file h1 h2 h3]
    exact ⟨rfl, follow_updateAt _ _ _ _ h4⟩

theorem c4_witness :
    ((stepLine ⟨[("d".data, Node.dir [("old".data, Node.file [])])], []⟩
          "d/".data).path =
        popLoop ([] : List Str) (indentOf "d/".data) ++
          [rstripSlash (cleanT "d/".data)] ∧
      follow (stepLine ⟨[("d".data, Node.dir [("old".data, Node.file [])])], []⟩
          "d/".data).root (popLoop ([] : List Str) (indentOf "d/".data)) =
        some (setKey [("d".data, Node.dir [("old".data, Node.file [])])]
          (rstripSlash (cleanT "d/".data)) (Node.dir [])) ∧
      getKey (setKey [("d".data, Node.dir [("old".data, Node.file [])])]
          (rstripSlash (cleanT "d/".data)) (Node.dir []))
        (rstripSlash (cleanT "d/".data)) = some (Node.dir [])) ∧
    ((stepLine ⟨[], []⟩ "f.txt".data).path =
        popLoop ([] : List Str) (indentOf "f.txt".data) ∧
      follow (stepLine ⟨[], []⟩ "f.txt".data).root
          (popLoop ([] : List Str) (indentOf "f.txt".data)) =
        some (setKey [] (cleanT "f.txt".data) (Node.file []))) :=
  ⟨(c4_indent_parser_line_actions
      ⟨[("d".data, Node.dir [("old".data, Node.file [])])], []⟩ "d/".data
      [("d".data, Node.dir [("old".data, Node.file [])])]
      (by decide) (by decide) rfl).1 (by decide),
   (c4_indent_parser_line_actions ⟨[], []⟩ "f.txt".data []
      (by decide) (by decide) rfl).2 (by decide)⟩

/-! ### Claim C5: stack safety of the Indent Parser -/

theorem popLoopF_length :
    ∀ (fuel : Nat) (path : List Str) (ind : Nat), path.length - ind ≤ fuel →
      (popLoopF fuel path ind).length = min path.length ind := by
  intro fuel
  induction fuel with
  | zero =>
    intro path ind h
    simp only [popLoopF]
    omega
  | succ fuel ih =>
    intro path ind h
    rw [popLoopF]
    by_cases hc : path.length > ind
    · rw [if_pos hc, ih path.dropLast ind (by rw [List.length_dropLast]; omega),
        List.length_dropLast]
      omega
    · rw [if_neg hc]
      omega

theorem popLoop_length (path : List Str) (ind : Nat) :
    (popLoop path ind).length = min path.length ind :=
  popLoopF_length path.length path ind (by omega)

/-- Claim C5: the Indent Parser raises no error (all its operations are
total), the pop loop leaves exactly `min (stack size - 1) indent` open
directories — in particular the stack never shrinks below the root entry
at any point of the fold — and the returned value is the bottom-most
root mapping. -/
theorem c5_indent_parser_stack_safety :
    (∀ (path : List Str) (ind : Nat),
        (popLoop path ind).length = min path.length ind) ∧
    (∀ (text : String) (k : Nat),
        1 ≤ (((splitChar '\n' (pstrip text.data)).take k).foldl stepLine
            initState).path.length + 1) ∧
    (∀ text : String,
        parse_tree_structure text =
          ((splitChar '\n' (pstrip text.data)).foldl stepLine initState).root) :=
  ⟨popLoop_length, fun _ _ => by omega, fun _ => rfl⟩

/-! ### Claim C8: glyph stripping of the Indent Parser -/

theorem subGlyphsAux_glyph_free :
    ∀ (l : Str), l.all (fun c => !treeGlyph c) = true →
      subGlyphsAux false l = l := by
  intro l
  induction l with
  | nil => intro _; rfl
  | cons c cs ih =>
    intro h
    rw [List.all_cons] at h
    rcases Bool.and_eq_true_iff.mp h with ⟨h1, h2⟩
    have hg : treeGlyph c = false := by
      cases hgc : treeGlyph c
      · rfl
      · rw [hgc] at h1; cases h1
    simp [subGlyphsAux, hg, ih h2]

theorem subLead_agree :
    ∀ (l : Str) (flag : Bool),
      (stripLeadAux flag l).all (fun c => !treeGlyph c) = true →
      subGlyphsAux flag l = stripLeadAux flag l := by
  intro l
  induction l with
  | nil => intro flag _; rfl
  | cons c cs ih =>
    intro flag h
    by_cases h1 : (flag && pyWhite c) = true
    · rw [stripLeadAux, if_pos h1] at h
      rw [subGlyphsAux, if_pos h1, stripLeadAux, if_pos h1]
      exact ih true h
    · by_cases h2 : treeGlyph c = true
      · rw [stripLeadAux, if_neg h1, if_pos h2] at h
        rw [subGlyphsAux, if_neg h1, if_pos h2, stripLeadAux, if_neg h1, if_pos h2]
        exact ih true h
      · rw [stripLeadAux, if_neg h1, if_neg h2] at h
        rw [subGlyphsAux, if_neg h1, if_neg h2, stripLeadAux, if_neg h1, if_neg h2]
        rw [List.all_cons] at h
        rw [subGlyphsAux_glyph_free cs (Bool.and_eq_true_iff.mp h).2]

/-- Claim C8 (amended): the substitution is global, not leading-only —
a glyph occurring inside the entry name is removed together with its
following whitespace (see the counterexample).  The leading-only
description is accurate exactly when the line after leading-glyph
removal contains no further glyph: then the global removal touches
nothing else and clean_line equals the stripped remainder. -/
theorem c8_leading_glyph_stripping (line : Str)
    (h : (stripLeadGlyphs line).all (fun c => !treeGlyph c) = true) :
    cleanT line = pstrip (stripLeadGlyphs line) := by
  unfold cleanT subGlyphs stripLeadGlyphs
  rw [subLead_agree line false h]

theorem c8_witness :
    (stripLeadGlyphs "├── ab".data).all (fun c => !treeGlyph c) = true ∧
      cleanT "├── ab".data = pstrip (stripLeadGlyphs "├── ab".data) :=
  ⟨by decide, c8_leading_glyph_stripping "├── ab".data (by decide)⟩

/-- Claim C8 counterexample: in `├── a│ b` the glyph inside the name is
also removed (with its following space), so the stored key is `ab`,
not the leading-only-stripped `a│ b`. -/
theorem c8_counterexample :
    ¬ cleanT "├── a│ b".data = pstrip (stripLeadGlyphs "├── a│ b".data) ∧
    parse_tree_structure "├── a│ b" = [("ab".data, Node.dir [])] := by
  exact ⟨by decide, rfl⟩

/-! ### Claim C6: depth anchoring of the Indent Parser -/

theorem popLoop_nil (ind : Nat) : popLoop [] ind = [] := rfl

theorem popLoop_of_le (path : List Str) (ind : Nat) (h : path.length ≤ ind) :
    popLoop path ind = path := by
  unfold popLoop
  cases hl : path.length with
  | zero => rfl
  | succ n => rw [popLoopF, if_neg (by omega)]

theorem getKey_updateAt_cons_ne (r : TreeM) (p : Str) (ps : List Str)
    (f : TreeM → TreeM) (k : Str) (h : ¬ k = p) :
    getKey (updateAt r (p :: ps) f) k = getKey r k := by
  rw [updateAt]
  cases hg : getKey r p with
  | some v =>
    cases v with
    | dir c => simp [getKey_setKey_ne _ _ _ _ h]
    | file s => rfl
  | none => rfl

/-- Claim C6: with three non-blank lines at strictly increasing
glyph-scanned indents where line 2 is a directory, no pop can fire, so
line 3's entry lands inside the mapping opened by line 2 — and (when
its name collides with neither earlier name) not in the root mapping. -/
theorem c6_depth_anchoring (text : String) (l1 l2 l3 : Str)
    (n1 n2 n3 : Str) (v3 : Node) (p1 : List Str)
    (hsplit : splitChar '\n' (pstrip text.data) = [l1, l2, l3])
    (hs1 : ¬ pstrip l1 = []) (hc1 : ¬ cleanT l1 = [])
    (hs2 : ¬ pstrip l2 = []) (hc2 : ¬ cleanT l2 = [])
    (hs3 : ¬ pstrip l3 = []) (hc3 : ¬ cleanT l3 = [])
    (hi12 : indentOf l1 < indentOf l2) (hi23 : indentOf l2 < indentOf l3)
    (hd2 : isDirLine (cleanT l2) = true)
    (hn1 : n1 = if isDirLine (cleanT l1) then rstripSlash (cleanT l1) else cleanT l1)
    (hn2 : n2 = rstripSlash (cleanT l2))
    (hn3 : n3 = if isDirLine (cleanT l3) then rstripSlash (cleanT l3) else cleanT l3)
    (hv3 : v3 = if isDirLine (cleanT l3) then Node.dir [] else Node.file [])
    (hp1 : p1 = if isDirLine (cleanT l1) then [n1] else [])
    (hne31 : ¬ n3 = n1) (hne32 : ¬ n3 = n2) :
    follow (parse_tree_structure text) (p1 ++ [n2]) = some [(n3, v3)] ∧
      getKey (parse_tree_structure text) n3 = none := by
  subst hn2
  have hparse : parse_tree_structure text =
      (stepLine (stepLine (stepLine initState l1) l2) l3).root := by
    show ((splitChar '\n' (pstrip text.data)).foldl stepLine initState).root = _
    rw [hsplit]
    rfl
  rw [hparse]
  have hind2 : 1 ≤ indentOf l2 := by omega
  have hind3 : 2 ≤ indentOf l3 := by omega
  cases hd1 : isDirLine (cleanT l1)
  · simp only [hd1, Bool.false_eq_true, if_false] at hn1 hp1
    subst hn1
    subst hp1
    have e1 : stepLine initState l1 = ⟨[(cleanT l1, Node.file [])], []⟩ := by
      rw [stepLine_file hs1 hc1 hd1]
      simp [initState, popLoop, popLoopF, updateAt, setKey]
    have e2 : stepLine (stepLine initState l1) l2 =
        ⟨setKey [(cleanT l1, Node.file [])] (rstripSlash (cleanT l2)) (Node.dir []),
          [rstripSlash (cleanT l2)]⟩ := by
      rw [e1, stepLine_dir hs2 hc2 hd2]
      simp [popLoop, popLoopF, updateAt]
    have hm2 : follow (setKey [(cleanT l1, Node.file [])] (rstripSlash (cleanT l2))
        (Node.dir [])) [rstripSlash (cleanT l2)] = some [] := by
      simp [follow, getKey_setKey_self]
    have hpop3 : popLoop [rstripSlash (cleanT l2)] (indentOf l3) =
        [rstripSlash (cleanT l2)] :=
      popLoop_of_le _ _ (by simp; omega)
    have hget2 : getKey (setKey [(cleanT l1, Node.file [])]
        (rstripSlash (cleanT l2)) (Node.dir [])) n3 = none := by
      rw [getKey_setKey_ne _ _ _ _ hne32]
      simp [getKey, Ne.symm hne31]
    cases hd3 : isDirLine (cleanT l3)
    · simp only [hd3, Bool.false_eq_true, if_false] at hn3 hv3
      subst hn3
      subst hv3
      rw [e2, stepLine_file hs3 hc3 hd3]
      simp only [hpop3, List.nil_append]
      refine ⟨?_, ?_⟩
      · rw [follow_updateAt _ _ _ _ hm2]
        simp [setKey]
      · rw [getKey_updateAt_cons_ne _ _ _ _ _ hne32]
        exact hget2
    · simp only [hd3, if_true] at hn3 hv3
      subst hn3
      subst hv3
      rw [e2, stepLine_dir hs3 hc3 hd3]
      simp only [hpop3, List.nil_append]
      refine ⟨?_, ?_⟩
      · rw [follow_updateAt _ _ _ _ hm2]
        simp [setKey]
      · rw [getKey_updateAt_cons_ne _ _ _ _ _ hne32]
        exact hget2
  · simp only [hd1, if_true] at hn1 hp1
    subst hn1
    subst hp1
    have e1 : stepLine initState l1 = ⟨[(rstripSlash (cleanT l1), Node.dir [])], []
        ++ [rstripSlash (cleanT l1)]⟩ := by
      rw [stepLine_dir hs1 hc1 hd1]
      simp [initState, popLoop, popLoopF, updateAt, setKey]
    have hpop2 : popLoop [rstripSlash (cleanT l1)] (indentOf l2) =
        [rstripSlash (cleanT l1)] :=
      popLoop_of_le _ _ (by simp; omega)
    have e2 : stepLine (stepLine initState l1) l2 =
        ⟨[(rstripSlash (cleanT l1), Node.dir [(rstripSlash (cleanT l2), Node.dir [])])],
          [rstripSlash (cleanT l1), rstripSlash (cleanT l2)]⟩ := by
      rw [e1, stepLine_dir hs2 hc2 hd2]
      simp only [List.nil_append, hpop2]
      simp [updateAt, getKey, setKey]
    have hm2 : follow
        [(rstripSlash (cleanT l1), Node.dir [(rstripSlash (cleanT l2), Node.dir [])])]
        [rstripSlash (cleanT l1), rstripSlash (cleanT l2)] = some [] := by
      simp [follow, getKey]
    have hpop3 : popLoop [rstripSlash (cleanT l1), rstripSlash (cleanT l2)]
        (indentOf l3) = [rstripSlash (cleanT l1), rstripSlash (cleanT l2)] :=
      popLoop_of_le _ _ (by simp; omega)
    have hget2 : getKey
        [(rstripSlash (cleanT l1), Node.dir [(rstripSlash (cleanT l2), Node.dir [])])]
        n3 = none := by
      simp [getKey, Ne.symm hne31]
    cases hd3 : isDirLine (cleanT l3)
    · simp only [hd3, Bool.false_eq_true, if_false] at hn3 hv3
      subst hn3
      subst hv3
      rw [e2, stepLine_file hs3 hc3 hd3]
      simp only [hpop3]
      refine ⟨?_, ?_⟩
      · show follow _ ([rstripSlash (cleanT l1)] ++ [rstripSlash (cleanT l2)]) = _
        rw [show [rstripSlash (cleanT l1)] ++ [rstripSlash (cleanT l2)] =
          [rstripSlash (cleanT l1), rstripSlash (cleanT l2)] from rfl]
        rw [follow_updateAt _ _ _ _ hm2]
        simp [setKey]
      · rw [getKey_updateAt_cons_ne _ _ _ _ _ hne31]
        exact hget2
    · simp only [hd3, if_true] at hn3 hv3
      subst hn3
      subst hv3
      rw [e2, stepLine_dir hs3 hc3 hd3]
      simp only [hpop3]
      refine ⟨?_, ?_⟩
      · show follow _ ([rstripSlash (cleanT l1)] ++ [rstripSlash (cleanT l2)]) = _
        rw [show [rstripSlash (cleanT l1)] ++ [rstripSlash (cleanT l2)] =
          [rstripSlash (cleanT l1), rstripSlash (cleanT l2)] from rfl]
        rw [follow_updateAt _ _ _ _ hm2]
        simp [setKey]
      · rw [getKey_updateAt_cons_ne _ _ _ _ _ hne31]
        exact hget2

theorem c6_witness :
    follow (parse_tree_structure "a/\n│b/\n││c.txt") (["a".data] ++ ["b".data]) =
        some [("c.txt".data, Node.file [])] ∧
      getKey (parse_tree_structure "a/\n│b/\n││c.txt") "c.txt".data = none :=
  c6_depth_anchoring "a/\n│b/\n││c.txt" "a/".data "│b/".data "││c.txt".data
    "a".data "b".data "c.txt".data (Node.file []) ["a".data]
    rfl (by decide) (by decide) (by decide) (by decide) (by decide) (by decide)
    (by decide) (by decide) (by decide) rfl rfl rfl rfl rfl
    (by decide) (by decide)

/-! ### Claim C9: idempotence of the Materializer -/

theorem oor_assoc (x y z : Option Str) : oor (oor x y) z = oor x (oor y z) := by
  cases x <;> rfl

theorem oor_if_none (c : Prop) [Decidable c] (s : Str) (y : Option Str) :
    oor (if c then some s else none) y = if c then some s else y := by
  split <;> rfl

theorem insertD_mem (l : List Str) (p q : Str) :
    q ∈ insertD l p ↔ q ∈ l ∨ q = p := by
  unfold insertD
  by_cases h : p ∈ l
  · rw [if_pos h]
    constructor
    · exact Or.inl
    · rintro (hq | rfl)
      · exact hq
      · exact h
  · rw [if_neg h]
    simp

theorem mkdirsF_succ_pos (fuel : Nat) (fs : FS) (p : Str)
    (h : (psplit2 p).1 ≠ [] ∧ (psplit2 p).2 ≠ [] ∧
      fsExists fs (psplit2 p).1 = false) :
    mkdirsF (fuel + 1) fs p =
      { mkdirsF fuel fs (psplit2 p).1 with
        dirs := insertD (mkdirsF fuel fs (psplit2 p).1).dirs p } := by
  simp only [mkdirsF]
  rw [if_pos h]

theorem mkdirsF_succ_neg (fuel : Nat) (fs : FS) (p : Str)
    (h : ¬ ((psplit2 p).1 ≠ [] ∧ (psplit2 p).2 ≠ [] ∧
      fsExists fs (psplit2 p).1 = false)) :
    mkdirsF (fuel + 1) fs p = { fs with dirs := insertD fs.dirs p } := by
  simp only [mkdirsF]
  rw [if_neg h]

theorem mkdirsF_files :
    ∀ (fuel : Nat) (fs : FS) (p : Str), (mkdirsF fuel fs p).files = fs.files := by
  intro fuel
  induction fuel with
  | zero => intro fs p; rfl
  | succ fuel ih =>
    intro fs p
    by_cases h : (psplit2 p).1 ≠ [] ∧ (psplit2 p).2 ≠ [] ∧
        fsExists fs (psplit2 p).1 = false
    · rw [mkdirsF_succ_pos fuel fs p h]
      exact ih fs _
    · rw [mkdirsF_succ_neg fuel fs p h]

theorem mkdirs_files (fs : FS) (p : Str) : (mkdirs fs p).files = fs.files :=
  mkdirsF_files _ _ _

theorem mkdirsF_dirs_mono :
    ∀ (fuel : Nat) (fs : FS) (p q : Str), q ∈ fs.dirs →
      q ∈ (mkdirsF fuel fs p).dirs := by
  intro fuel
  induction fuel with
  | zero =>
    intro fs p q hq
    exact (insertD_mem _ _ _).mpr (Or.inl hq)
  | succ fuel ih =>
    intro fs p q hq
    by_cases h : (psplit2 p).1 ≠ [] ∧ (psplit2 p).2 ≠ [] ∧
        fsExists fs (psplit2 p).1 = false
    · rw [mkdirsF_succ_pos fuel fs p h]
      exact (insertD_mem _ _ _).mpr (Or.inl (ih fs _ q hq))
    · rw [mkdirsF_succ_neg fuel fs p h]
      exact (insertD_mem _ _ _).mpr (Or.inl hq)

theorem mkdirsF_self_mem :
    ∀ (fuel : Nat) (fs : FS) (p : Str), p ∈ (mkdirsF fuel fs p).dirs := by
  intro fuel
  cases fuel with
  | zero =>
    intro fs p
    exact (insertD_mem _ _ _).mpr (Or.inr rfl)
  | succ fuel =>
    intro fs p
    by_cases h : (psplit2 p).1 ≠ [] ∧ (psplit2 p).2 ≠ [] ∧
        fsExists fs (psplit2 p).1 = false
    · rw [mkdirsF_succ_pos fuel fs p h]
      exact (insertD_mem _ _ _).mpr (Or.inr rfl)
    · rw [mkdirsF_succ_neg fuel fs p h]
      exact (insertD_mem _ _ _).mpr (Or.inr rfl)

theorem lookupF_setF (f : List (Str × Str)) (p : Str) (s : Str) (q : Str) :
    lookupF (setF f p s) q = if p = q then some s else lookupF f q := by
  induction f with
  | nil => simp [setF, lookupF]
  | cons e rest ih =>
    obtain ⟨k, v⟩ := e
    by_cases hkp : k = p
    · subst hkp
      by_cases hpq : k = q <;> simp [setF, lookupF, hpq]
    · by_cases hkq : k = q
      · subst hkq
        have : ¬ p = k := fun h => hkp h.symm
        simp [setF, lookupF, hkp, this]
      · simp [setF, lookupF, hkp, hkq, ih]

theorem fsExists_iff (fs : FS) (q : Str) :
    fsExists fs q = true ↔ q ∈ fs.dirs ∨ (lookupF fs.files q).isSome = true := by
  unfold fsExists
  rw [Bool.or_eq_true, List.elem_iff]

theorem tree_ind {P : TreeM → Prop} (h0 : P [])
    (hf : ∀ n s rest, P rest → P ((n, Node.file s) :: rest))
    (hd : ∀ n c rest, P c → P rest → P ((n, Node.dir c) :: rest)) :
    ∀ t, P t := by
  suffices H : ∀ (N : Nat) (t : TreeM), sizeT t ≤ N → P t from
    fun t => H (sizeT t) t (Nat.le_refl _)
  intro N
  induction N with
  | zero =>
    intro t h
    match t with
    | [] => exact h0
    | (n, Node.file s) :: rest => simp [sizeT] at h
    | (n, Node.dir c) :: rest => simp [sizeT] at h
  | succ N ih =>
    intro t h
    match t with
    | [] => exact h0
    | (n, Node.file s) :: rest =>
      refine hf n s rest (ih rest ?_)
      simp only [sizeT] at h
      omega
    | (n, Node.dir c) :: rest =>
      refine hd n c rest (ih c ?_) (ih rest ?_) <;>
        (simp only [sizeT] at h; omega)

theorem create_files_lookup :
    ∀ (t : TreeM) (fs : FS) (b : Str) (p : Str),
      lookupF (create_structure fs b t).files p =
        oor (ffind b t p) (lookupF fs.files p) := by
  intro t
  induction t using tree_ind with
  | h0 => intro fs b p; simp [create_structure, ffind, oor]
  | hf n s rest ih =>
    intro fs b p
    simp only [create_structure, ffind]
    rw [ih, lookupF_setF]
    have hfs1 : (if (psplit (pjoin b n)).1 ≠ [] ∧
        fsExists fs (psplit (pjoin b n)).1 = false then
          mkdirs fs (psplit (pjoin b n)).1 else fs).files = fs.files := by
      split
      · exact mkdirs_files _ _
      · rfl
    rw [hfs1, oor_assoc, oor_if_none]
  | hd n c rest ihc ihr =>
    intro fs b p
    simp only [create_structure, ffind]
    rw [ihr, ihc, mkdirs_files, ← oor_assoc]

theorem create_dirs_mono :
    ∀ (t : TreeM) (fs : FS) (b : Str) (q : Str),
      q ∈ fs.dirs → q ∈ (create_structure fs b t).dirs := by
  intro t
  induction t using tree_ind with
  | h0 => intro fs b q hq; simp only [create_structure]; exact hq
  | hf n s rest ih =>
    intro fs b q hq
    simp only [create_structure]
    apply ih
    show q ∈ (if (psplit (pjoin b n)).1 ≠ [] ∧
        fsExists fs (psplit (pjoin b n)).1 = false then
          mkdirs fs (psplit (pjoin b n)).1 else fs).dirs
    split
    · exact mkdirsF_dirs_mono _ _ _ q hq
    · exact hq
  | hd n c rest ihc ihr =>
    intro fs b q hq
    simp only [create_structure]
    exact ihr _ _ q (ihc _ _ q (mkdirsF_dirs_mono _ _ _ q hq))

theorem oor_isSome_right (x y : Option Str) (h : y.isSome = true) :
    (oor x y).isSome = true := by
  cases x
  · exact h
  · rfl

theorem create_exists_mono :
    ∀ (fs : FS) (b : Str) (t : TreeM) (q : Str),
      fsExists fs q = true → fsExists (create_structure fs b t) q = true := by
  intro fs b t q hq
  rcases (fsExists_iff fs q).mp hq with h | h
  · exact (fsExists_iff _ q).mpr (Or.inl (create_dirs_mono t fs b q h))
  · refine (fsExists_iff _ q).mpr (Or.inr ?_)
    rw [create_files_lookup]
    exact oor_isSome_right _ _ h

theorem mkdirsF_pair :
    ∀ (fuel : Nat) (fs g : FS) (p : Str),
      (∀ q, fsExists fs q = true → fsExists g q = true) →
      (∀ q, q ∈ (mkdirsF fuel fs p).dirs → q ∈ g.dirs) →
      ∀ q, (q ∈ (mkdirsF fuel g p).dirs ↔ q ∈ g.dirs) := by
  intro fuel fs g p hE hD q
  cases fuel with
  | zero =>
    have hp : p ∈ g.dirs := hD p ((insertD_mem _ _ _).mpr (Or.inr rfl))
    show q ∈ insertD g.dirs p ↔ _
    rw [insertD_mem]
    constructor
    · rintro (h | rfl)
      · exact h
      · exact hp
    · exact Or.inl
  | succ fuel =>
    have hp : p ∈ g.dirs := by
      apply hD
      by_cases hcf : (psplit2 p).1 ≠ [] ∧ (psplit2 p).2 ≠ [] ∧
          fsExists fs (psplit2 p).1 = false
      · rw [mkdirsF_succ_pos fuel fs p hcf]
        exact (insertD_mem _ _ _).mpr (Or.inr rfl)
      · rw [mkdirsF_succ_neg fuel fs p hcf]
        exact (insertD_mem _ _ _).mpr (Or.inr rfl)
    have hcg : ¬ ((psplit2 p).1 ≠ [] ∧ (psplit2 p).2 ≠ [] ∧
        fsExists g (psplit2 p).1 = false) := by
      rintro ⟨hg1, hg2, hg3⟩
      by_cases hcf : (psplit2 p).1 ≠ [] ∧ (psplit2 p).2 ≠ [] ∧
          fsExists fs (psplit2 p).1 = false
      · have hh : (psplit2 p).1 ∈ g.dirs := by
          apply hD
          rw [mkdirsF_succ_pos fuel fs p hcf]
          exact (insertD_mem _ _ _).mpr (Or.inl (mkdirsF_self_mem fuel fs _))
        rw [(fsExists_iff g _).mpr (Or.inl hh)] at hg3
        cases hg3
      · cases hef : fsExists fs (psplit2 p).1 with
        | false => exact hcf ⟨hg1, hg2, hef⟩
        | true =>
          rw [hE _ hef] at hg3
          cases hg3
    rw [mkdirsF_succ_neg fuel g p hcg]
    show q ∈ insertD g.dirs p ↔ _
    rw [insertD_mem]
    constructor
    · rintro (h | rfl)
      · exact h
      · exact hp
    · exact Or.inl

theorem create_pair :
    ∀ (t : TreeM) (fs g : FS) (b : Str),
      (∀ q, fsExists fs q = true → fsExists g q = true) →
      (∀ q, q ∈ (create_structure fs b t).dirs → q ∈ g.dirs) →
      (∀ q, q ∈ (create_structure g b t).dirs ↔ q ∈ g.dirs) ∧
      (∀ q, fsExists (create_structure fs b t) q = true →
        fsExists (create_structure g b t) q = true) := by
  intro t
  induction t using tree_ind with
  | h0 =>
    intro fs g b hE hD
    constructor
    · intro q
      simp only [create_structure]
    · intro q
      simp only [create_structure]
      exact hE q
  | hf n s rest ih =>
    intro fs g b hE hD
    simp only [create_structure] at hD ⊢
    have key : (if (psplit (pjoin b n)).1 ≠ [] ∧
        fsExists g (psplit (pjoin b n)).1 = false then
          mkdirs g (psplit (pjoin b n)).1 else g) = g := by
      by_cases hpe : (psplit (pjoin b n)).1 = []
      · rw [if_neg]
        rintro ⟨h1, _⟩
        exact h1 hpe
      · cases hef : fsExists fs (psplit (pjoin b n)).1 with
        | true =>
          rw [if_neg]
          rintro ⟨_, hg3⟩
          rw [hE _ hef] at hg3
          cases hg3
        | false =>
          have hpar : (psplit (pjoin b n)).1 ∈ g.dirs := by
            apply hD
            apply create_dirs_mono
            show (psplit (pjoin b n)).1 ∈ (if (psplit (pjoin b n)).1 ≠ [] ∧
                fsExists fs (psplit (pjoin b n)).1 = false then
                  mkdirs fs (psplit (pjoin b n)).1 else fs).dirs
            rw [if_pos ⟨hpe, hef⟩]
            exact mkdirsF_self_mem _ _ _
          rw [if_neg]
          rintro ⟨_, hg3⟩
          rw [(fsExists_iff g _).mpr (Or.inl hpar)] at hg3
          cases hg3
    rw [key]
    have hf1 : (if (psplit (pjoin b n)).1 ≠ [] ∧
        fsExists fs (psplit (pjoin b n)).1 = false then
          mkdirs fs (psplit (pjoin b n)).1 else fs).files = fs.files := by
      split
      · exact mkdirs_files _ _
      · rfl
    have hE2 : ∀ q,
        fsExists ⟨(if (psplit (pjoin b n)).1 ≠ [] ∧
            fsExists fs (psplit (pjoin b n)).1 = false then
              mkdirs fs (psplit (pjoin b n)).1 else fs).dirs,
          setF (if (psplit (pjoin b n)).1 ≠ [] ∧
            fsExists fs (psplit (pjoin b n)).1 = false then
              mkdirs fs (psplit (pjoin b n)).1 else fs).files
            (pjoin b n) s⟩ q = true →
        fsExists ⟨g.dirs, setF g.files (pjoin b n) s⟩ q = true := by
      intro q hq
      rcases (fsExists_iff _ _).mp hq with hdq | hfq
      · refine (fsExists_iff _ _).mpr (Or.inl ?_)
        apply hD
        apply create_dirs_mono
        exact hdq
      · rw [show (⟨(if (psplit (pjoin b n)).1 ≠ [] ∧
            fsExists fs (psplit (pjoin b n)).1 = false then
              mkdirs fs (psplit (pjoin b n)).1 else fs).dirs,
          setF (if (psplit (pjoin b n)).1 ≠ [] ∧
            fsExists fs (psplit (pjoin b n)).1 = false then
              mkdirs fs (psplit (pjoin b n)).1 else fs).files
            (pjoin b n) s⟩ : FS).files = setF (if (psplit (pjoin b n)).1 ≠ [] ∧
            fsExists fs (psplit (pjoin b n)).1 = false then
              mkdirs fs (psplit (pjoin b n)).1 else fs).files
            (pjoin b n) s from rfl, lookupF_setF, hf1] at hfq
        by_cases hppq : pjoin b n = q
        · refine (fsExists_iff _ _).mpr (Or.inr ?_)
          show (lookupF (setF g.files (pjoin b n) s) q).isSome = true
          rw [lookupF_setF, if_pos hppq]
          rfl
        · rw [if_neg hppq] at hfq
          have hgq : fsExists g q = true := hE q ((fsExists_iff _ _).mpr (Or.inr hfq))
          rcases (fsExists_iff _ _).mp hgq with h | h
          · exact (fsExists_iff _ _).mpr (Or.inl h)
          · refine (fsExists_iff _ _).mpr (Or.inr ?_)
            show (lookupF (setF g.files (pjoin b n) s) q).isSome = true
            rw [lookupF_setF, if_neg hppq]
            exact h
    exact ih _ _ b hE2 hD
  | hd n c rest ihc ihr =>
    intro fs g b hE hD
    simp only [create_structure] at hD ⊢
    have hDA : ∀ q, q ∈ (mkdirs fs (pjoin b n)).dirs → q ∈ g.dirs := fun q hq =>
      hD q (create_dirs_mono rest _ b q (create_dirs_mono c _ (pjoin b n) q hq))
    have mk1 : ∀ q, q ∈ (mkdirs g (pjoin b n)).dirs ↔ q ∈ g.dirs :=
      mkdirsF_pair _ fs g (pjoin b n) hE hDA
    have hEA : ∀ q, fsExists (mkdirs fs (pjoin b n)) q = true →
        fsExists (mkdirs g (pjoin b n)) q = true := by
      intro q hq
      rcases (fsExists_iff _ _).mp hq with h | h
      · exact (fsExists_iff _ _).mpr (Or.inl (mkdirsF_dirs_mono _ _ _ q (hDA q h)))
      · rw [mkdirs_files] at h
        have hgq := hE q ((fsExists_iff _ _).mpr (Or.inr h))
        rcases (fsExists_iff _ _).mp hgq with h2 | h2
        · exact (fsExists_iff _ _).mpr (Or.inl (mkdirsF_dirs_mono _ _ _ q h2))
        · refine (fsExists_iff _ _).mpr (Or.inr ?_)
          rw [mkdirs_files]
          exact h2
    have hDc : ∀ q, q ∈ (create_structure (mkdirs fs (pjoin b n)) (pjoin b n) c).dirs →
        q ∈ (mkdirs g (pjoin b n)).dirs := fun q hq =>
      mkdirsF_dirs_mono _ _ _ q (hD q (create_dirs_mono rest _ b q hq))
    obtain ⟨cc1, cc2⟩ := ihc (mkdirs fs (pjoin b n)) (mkdirs g (pjoin b n))
      (pjoin b n) hEA hDc
    have hDr : ∀ q, q ∈ (create_structure
          (create_structure (mkdirs fs (pjoin b n)) (pjoin b n) c) b rest).dirs →
        q ∈ (create_structure (mkdirs g (pjoin b n)) (pjoin b n) c).dirs := by
      intro q hq
      exact create_dirs_mono c _ (pjoin b n) q (mkdirsF_dirs_mono _ _ _ q (hD q hq))
    obtain ⟨cr1, cr2⟩ := ihr (create_structure (mkdirs fs (pjoin b n)) (pjoin b n) c)
      (create_structure (mkdirs g (pjoin b n)) (pjoin b n) c) b cc2 hDr
    exact ⟨fun q => (cr1 q).trans ((cc1 q).trans (mk1 q)), cr2⟩

/-- Claim C9: materializing the same Tree Model twice into an empty
target leaves the filesystem in the same state as materializing it
once — the same set of directory paths and the same file contents at
every path (directory creation is idempotent, files are rewritten with
identical content, never duplicated). -/
theorem c9_materializer_idempotent (b : Str) (t : TreeM) :
    (∀ q, q ∈ (create_structure (create_structure emptyFS b t) b t).dirs ↔
        q ∈ (create_structure emptyFS b t).dirs) ∧
    (∀ p, lookupF (create_structure (create_structure emptyFS b t) b t).files p =
        lookupF (create_structure emptyFS b t).files p) := by
  constructor
  · exact (create_pair t emptyFS (create_structure emptyFS b t) b
      (fun q hq => by
        rw [show fsExists emptyFS q = false from rfl] at hq
        cases hq)
      (fun q hq => hq)).1
  · intro p
    rw [create_files_lookup, create_files_lookup]
    cases hf : ffind b t p <;> simp [oor, hf, emptyFS, lookupF]

/-! ### Claim C10: the summary counts -/

theorem keyOK_spec {k : Str} (h : keyOK k = true) :
    k ≠ [] ∧ ∀ c ∈ k, ¬ c = '/' := by
  unfold keyOK at h
  rcases Bool.and_eq_true_iff.mp h with ⟨h1, h2⟩
  refine ⟨of_decide_eq_true h1, ?_⟩
  intro c hc
  have := List.all_eq_true.mp h2 c hc
  simpa using this

theorem keyOK_bInv {b : Str} (h : keyOK b = true) : bInv b := by
  obtain ⟨h1, h2⟩ := keyOK_spec h
  refine ⟨h1, ?_⟩
  intro hl
  exact h2 '/' (List.mem_of_mem_getLast? hl) rfl

theorem pjoin_eq {b n : Str} (hn : keyOK n = true) (hb : bInv b) :
    pjoin b n = b ++ '/' :: n := by
  obtain ⟨hn1, hn2⟩ := keyOK_spec hn
  have hh : ¬ n.head? = some '/' := by
    cases n with
    | nil => simp
    | cons c cs =>
      simp only [List.head?]
      intro hc
      exact hn2 c (List.mem_cons_self _ _) (Option.some.inj hc)
  unfold pjoin
  rw [if_neg hh, if_neg hb.1, if_neg hb.2]

theorem pjoin_length {b n : Str} (hn : keyOK n = true) (hb : bInv b) :
    (pjoin b n).length = b.length + 1 + n.length := by
  rw [pjoin_eq hn hb]
  simp
  omega

theorem pjoin_ne_base {b n : Str} (hn : keyOK n = true) (hb : bInv b) :
    ¬ pjoin b n = b := by
  intro h
  have := pjoin_length hn hb
  rw [h] at this
  omega

theorem getLast?_append_ne_nil {l1 l2 : Str} (h : l2 ≠ []) :
    (l1 ++ l2).getLast? = l2.getLast? := by
  rw [List.getLast?_append]
  cases hl : l2.getLast? with
  | none => exact absurd (List.getLast?_eq_none_iff.mp hl) h
  | some c => rfl

theorem bInv_pjoin {b n : Str} (hn : keyOK n = true) (hb : bInv b) :
    bInv (pjoin b n) := by
  obtain ⟨hn1, hn2⟩ := keyOK_spec hn
  rw [pjoin_eq hn hb]
  constructor
  · simp
  · rw [getLast?_append_ne_nil (by simp),
      show ('/' : Char) :: n = ['/'] ++ n from rfl, getLast?_append_ne_nil hn1]
    intro hl
    exact hn2 '/' (List.mem_of_mem_getLast? hl) rfl

theorem takeWhile_all {pr : Char → Bool} :
    ∀ (l : Str), (∀ c ∈ l, pr c = true) → l.takeWhile pr = l := by
  intro l
  induction l with
  | nil => intro _; rfl
  | cons c cs ih =>
    intro h
    rw [List.takeWhile_cons, if_pos (h c (List.mem_cons_self _ _)),
      ih (fun x hx => h x (List.mem_cons_of_mem _ hx))]

theorem takeWhile_append_stop {pr : Char → Bool} :
    ∀ (l1 : Str) (x : Char) (l2 : Str),
      (∀ c ∈ l1, pr c = true) → pr x = false →
      (l1 ++ x :: l2).takeWhile pr = l1 := by
  intro l1
  induction l1 with
  | nil =>
    intro x l2 _ hx
    rw [List.nil_append, List.takeWhile_cons, if_neg (by simp [hx])]
  | cons c cs ih =>
    intro x l2 h hx
    rw [List.cons_append, List.takeWhile_cons, if_pos (h c (List.mem_cons_self _ _)),
      ih x l2 (fun y hy => h y (List.mem_cons_of_mem _ hy)) hx]

theorem psplit_noslash {b : Str} (h : ∀ c ∈ b, ¬ c = '/') : psplit b = ([], b) := by
  have htail : (b.reverse.takeWhile (fun c => !(c = '/'))).reverse = b := by
    rw [takeWhile_all b.reverse (by
      intro c hc
      simp [h c (List.mem_reverse.mp hc)]), List.reverse_reverse]
  simp only [psplit]
  rw [htail]
  simp

theorem dropWhile_head_false {pr : Char → Bool} {l : Str} {c : Char}
    (hh : l.head? = some c) (hc : pr c = false) : l.dropWhile pr = l := by
  cases l with
  | nil => rfl
  | cons x xs =>
    have : x = c := Option.some.inj hh
    subst this
    rw [List.dropWhile_cons, if_neg (by simp [hc])]

theorem psplit_pjoin {b n : Str} (hn : keyOK n = true) (hb : bInv b) :
    psplit (pjoin b n) = (b, n) := by
  obtain ⟨hn1, hn2⟩ := keyOK_spec hn
  obtain ⟨hb1, hb2⟩ := hb
  rw [pjoin_eq hn ⟨hb1, hb2⟩]
  have hc0 : ∃ c0, b.getLast? = some c0 ∧ ¬ c0 = '/' := by
    cases hgl : b.getLast? with
    | none => exact absurd (List.getLast?_eq_none_iff.mp hgl) hb1
    | some c0 =>
      refine ⟨c0, rfl, ?_⟩
      intro hcc
      subst hcc
      exact hb2 hgl
  obtain ⟨c0, hgl, hc0ne⟩ := hc0
  have htail : ((b ++ '/' :: n).reverse.takeWhile (fun c => !(c = '/'))).reverse = n := by
    rw [List.reverse_append, List.reverse_cons, List.append_assoc,
      List.singleton_append,
      takeWhile_append_stop n.reverse '/' b.reverse
        (by
          intro c hc
          simp [hn2 c (List.mem_reverse.mp hc)])
        (by simp),
      List.reverse_reverse]
  have hlen : (b ++ '/' :: n).length - n.length = b.length + 1 := by
    simp
    omega
  have hrawh : (b ++ '/' :: n).take ((b ++ '/' :: n).length - n.length) =
      b ++ ['/'] := by
    rw [hlen, show b ++ '/' :: n = (b ++ ['/']) ++ n from by simp,
      show b.length + 1 = (b ++ ['/']).length from by simp]
    exact List.take_left ..
  have hne_all : ((b ++ ['/']).all (fun c => c = '/')) = false := by
    cases hall : (b ++ ['/']).all (fun c => c = '/') with
    | false => rfl
    | true =>
      have := List.all_eq_true.mp hall c0
        (List.mem_append_left _ (List.mem_of_mem_getLast? hgl))
      simp at this
      exact absurd this hc0ne
  have hhead : (((b ++ ['/']).reverse.dropWhile (fun c => c = '/')).reverse) = b := by
    rw [List.reverse_append, List.reverse_singleton, List.singleton_append,
      List.dropWhile_cons, if_pos (by simp),
      dropWhile_head_false (by rw [List.head?_reverse]; exact hgl) (by simp [hc0ne]),
      List.reverse_reverse]
  simp only [psplit]
  rw [htail, hrawh, if_pos ⟨by simp, by simp [hne_all]⟩, hhead]

theorem psplit2_pjoin {b n : Str} (hn : keyOK n = true) (hb : bInv b) :
    psplit2 (pjoin b n) = (b, n) := by
  unfold psplit2
  rw [psplit_pjoin hn hb, if_neg]
  intro h
  exact (keyOK_spec hn).1 h

theorem psplit2_noslash {b : Str} (hb : keyOK b = true) : psplit2 b = ([], b) := by
  obtain ⟨h1, h2⟩ := keyOK_spec hb
  unfold psplit2
  rw [psplit_noslash h2, if_neg]
  exact h1

theorem mkdirsF_guard_false {fuel : Nat} {fs : FS} {p : Str}
    (h : ¬ ((psplit2 p).1 ≠ [] ∧ (psplit2 p).2 ≠ [] ∧
      fsExists fs (psplit2 p).1 = false)) :
    mkdirsF fuel fs p = { fs with dirs := insertD fs.dirs p } := by
  cases fuel with
  | zero => rfl
  | succ fuel => exact mkdirsF_succ_neg _ _ _ h

theorem mkdirs_pjoin_base_mem {fs : FS} {b n : Str} (hn : keyOK n = true)
    (hb : bInv b) (hmem : b ∈ fs.dirs) :
    mkdirs fs (pjoin b n) = { fs with dirs := insertD fs.dirs (pjoin b n) } := by
  unfold mkdirs
  apply mkdirsF_guard_false
  rw [psplit2_pjoin hn hb]
  rintro ⟨_, _, h3⟩
  rw [(fsExists_iff fs b).mpr (Or.inl hmem)] at h3
  cases h3

theorem mkdirs_empty_noslash {b : Str} (hb : keyOK b = true) :
    mkdirs emptyFS b = ⟨[b], []⟩ := by
  unfold mkdirs
  rw [mkdirsF_guard_false (by
    rw [psplit2_noslash hb]
    rintro ⟨h1, _, _⟩
    exact h1 rfl)]
  simp [emptyFS, insertD]

theorem mkdirs_empty_pjoin {b n : Str} (hn : keyOK n = true) (hb : keyOK b = true) :
    mkdirs emptyFS (pjoin b n) = ⟨[b, pjoin b n], []⟩ := by
  have hbI := keyOK_bInv hb
  have hlen : 1 ≤ (pjoin b n).length := by
    rw [pjoin_length hn hbI]
    omega
  have hcond : (psplit2 (pjoin b n)).1 ≠ [] ∧ (psplit2 (pjoin b n)).2 ≠ [] ∧
      fsExists emptyFS (psplit2 (pjoin b n)).1 = false := by
    rw [psplit2_pjoin hn hbI]
    exact ⟨hbI.1, (keyOK_spec hn).1, rfl⟩
  unfold mkdirs
  obtain ⟨m, hm⟩ : ∃ m, (pjoin b n).length = m + 1 :=
    ⟨(pjoin b n).length - 1, by omega⟩
  rw [hm, mkdirsF_succ_pos m emptyFS (pjoin b n) hcond]
  rw [show (psplit2 (pjoin b n)).1 = b from by rw [psplit2_pjoin hn hbI]]
  rw [mkdirsF_guard_false (by
    rw [psplit2_noslash hb]
    rintro ⟨h1, _, _⟩
    exact h1 rfl)]
  have hne : ¬ pjoin b n ∈ ({ emptyFS with dirs := insertD emptyFS.dirs b } : FS).dirs := by
    show ¬ pjoin b n ∈ insertD emptyFS.dirs b
    rw [show insertD emptyFS.dirs b = [b] from by simp [emptyFS, insertD]]
    intro hmem
    rcases List.mem_singleton.mp hmem with h
    exact pjoin_ne_base hn hbI h
  show FS.mk (insertD (insertD emptyFS.dirs b) (pjoin b n)) _ = _
  rw [show insertD emptyFS.dirs b = [b] from by simp [emptyFS, insertD]]
  rw [show insertD [b] (pjoin b n) = [b] ++ [pjoin b n] from by
    unfold insertD
    rw [if_neg (by
      intro hmem
      exact pjoin_ne_base hn hbI (List.mem_singleton.mp hmem))]]
  rfl

theorem create_dirs_char :
    ∀ (t : TreeM) (fs : FS) (b : Str),
      treeKeysAll keyOK t = true → bInv b → b ∈ fs.dirs →
      ∀ q, (q ∈ (create_structure fs b t).dirs ↔ q ∈ fs.dirs ∨ q ∈ dlist b t) := by
  intro t
  induction t using tree_ind with
  | h0 =>
    intro fs b _ _ _ q
    simp only [create_structure, dlist]
    simp
  | hf n s rest ih =>
    intro fs b hwf hb hmem q
    rw [treeKeysAll] at hwf
    rcases Bool.and_eq_true_iff.mp hwf with ⟨hkn, hkr⟩
    simp only [create_structure, dlist]
    have hpar : (psplit (pjoin b n)).1 = b := by rw [psplit_pjoin hkn hb]
    have hguard : ¬ ((psplit (pjoin b n)).1 ≠ [] ∧
        fsExists fs (psplit (pjoin b n)).1 = false) := by
      rw [hpar]
      rintro ⟨_, h3⟩
      rw [(fsExists_iff fs b).mpr (Or.inl hmem)] at h3
      cases h3
    rw [if_neg hguard]
    exact ih ⟨fs.dirs, setF fs.files (pjoin b n) s⟩ b hkr hb hmem q
  | hd n c rest ihc ihr =>
    intro fs b hwf hb hmem q
    rw [treeKeysAll] at hwf
    rcases Bool.and_eq_true_iff.mp hwf with ⟨h12, hkr⟩
    rcases Bool.and_eq_true_iff.mp h12 with ⟨hkn, hkc⟩
    simp only [create_structure, dlist]
    rw [mkdirs_pjoin_base_mem hkn hb hmem]
    have hchar1 := ihc ⟨insertD fs.dirs (pjoin b n), fs.files⟩ (pjoin b n) hkc
      (bInv_pjoin hkn hb) ((insertD_mem _ _ _).mpr (Or.inr rfl))
    have hbB : b ∈ (create_structure ⟨insertD fs.dirs (pjoin b n), fs.files⟩
        (pjoin b n) c).dirs :=
      create_dirs_mono c _ _ b ((insertD_mem _ _ _).mpr (Or.inl hmem))
    have hchar2 := ihr (create_structure ⟨insertD fs.dirs (pjoin b n), fs.files⟩
        (pjoin b n) c) b hkr hb hbB
    rw [hchar2 q, hchar1 q]
    show (q ∈ insertD fs.dirs (pjoin b n) ∨ _) ∨ _ ↔ _
    rw [insertD_mem]
    simp only [List.mem_cons, List.mem_append]
    tauto

theorem create_dirs_char_empty :
    ∀ (t : TreeM) (base : Str),
      treeKeysAll keyOK t = true → keyOK base = true → t ≠ [] →
      ∀ q, (q ∈ (create_structure emptyFS base t).dirs ↔
        q = base ∨ q ∈ dlist base t) := by
  intro t base hwf hb hne q
  have hbI := keyOK_bInv hb
  cases t with
  | nil => exact absurd rfl hne
  | cons e rest =>
    obtain ⟨n, v⟩ := e
    cases v with
    | dir c =>
      rw [treeKeysAll] at hwf
      rcases Bool.and_eq_true_iff.mp hwf with ⟨h12, hkr⟩
      rcases Bool.and_eq_true_iff.mp h12 with ⟨hkn, hkc⟩
      simp only [create_structure, dlist]
      rw [mkdirs_empty_pjoin hkn hb]
      have hchar1 := create_dirs_char c ⟨[base, pjoin base n], []⟩ (pjoin base n)
        hkc (bInv_pjoin hkn hbI) (by simp)
      have hbB : base ∈ (create_structure ⟨[base, pjoin base n], []⟩
          (pjoin base n) c).dirs :=
        create_dirs_mono c _ _ base (by simp)
      have hchar2 := create_dirs_char rest _ base hkr hbI hbB
      rw [hchar2 q, hchar1 q]
      simp only [List.mem_cons, List.mem_append, List.mem_singleton,
        List.not_mem_nil, or_false]
      tauto
    | file s =>
      rw [treeKeysAll] at hwf
      rcases Bool.and_eq_true_iff.mp hwf with ⟨hkn, hkr⟩
      simp only [create_structure, dlist]
      have hpar : (psplit (pjoin base n)).1 = base := by
        rw [psplit_pjoin hkn hbI]
      have hguard : ((psplit (pjoin base n)).1 ≠ [] ∧
          fsExists emptyFS (psplit (pjoin base n)).1 = false) := by
        rw [hpar]
        exact ⟨(keyOK_spec hb).1, rfl⟩
      rw [if_pos hguard, hpar, mkdirs_empty_noslash hb]
      have hchar := create_dirs_char rest
        ⟨[base], setF ([] : List (Str × Str)) (pjoin base n) s⟩ base hkr hbI
        (by simp)
      refine (hchar q).trans ?_
      simp

theorem dlist_length : ∀ (t : TreeM) (b : Str),
    (dlist b t).length = countDirNodes t := by
  intro t
  induction t using tree_ind with
  | h0 => intro b; simp [dlist, countDirNodes]
  | hf n s rest ih => intro b; simp only [dlist, countDirNodes]; exact ih b
  | hd n c rest ihc ihr =>
    intro b
    simp only [dlist, countDirNodes, List.length_cons, List.length_append]
    rw [ihc, ihr]
    omega

theorem flist_length : ∀ (t : TreeM) (b : Str),
    (flist b t).length = countFileNodes t := by
  intro t
  induction t using tree_ind with
  | h0 => intro b; simp [flist, countFileNodes]
  | hf n s rest ih =>
    intro b
    simp only [flist, countFileNodes, List.length_cons]
    rw [ih]
    omega
  | hd n c rest ihc ihr =>
    intro b
    simp only [flist, countFileNodes, List.length_append]
    rw [ihc, ihr]

theorem lstarts_refl_append : ∀ (x r : Str), lstarts x (x ++ r) = true := by
  intro x
  induction x with
  | nil => intro r; rfl
  | cons c cs ih => intro r; simp [lstarts, ih r]

theorem lstarts_length : ∀ (nd hy : Str), lstarts nd hy = true →
    nd.length ≤ hy.length := by
  intro nd
  induction nd with
  | nil => intro hy _; simp
  | cons c cs ih =>
    intro hy h
    cases hy with
    | nil => cases h
    | cons d ds =>
      rw [lstarts] at h
      rcases Bool.and_eq_true_iff.mp h with ⟨_, h2⟩
      have := ih ds h2
      simp
      omega

theorem lstarts_append_weaken : ∀ (x y q : Str),
    lstarts (x ++ y) q = true → lstarts x q = true := by
  intro x
  induction x with
  | nil => intro y q _; rfl
  | cons c cs ih =>
    intro y q h
    cases q with
    | nil => cases h
    | cons d ds =>
      rw [List.cons_append, lstarts] at h
      rcases Bool.and_eq_true_iff.mp h with ⟨h1, h2⟩
      rw [lstarts, h1]
      simpa using ih y ds h2

theorem lstarts_base_false (b : Str) : lstarts (b ++ ['/']) b = false := by
  cases h : lstarts (b ++ ['/']) b with
  | false => rfl
  | true =>
    have := lstarts_length _ _ h
    simp at this

theorem topKeys_cons (n : Str) (v : Node) (rest : TreeM) :
    topKeys ((n, v) :: rest) = n :: topKeys rest := rfl

theorem dlist_under : ∀ (t : TreeM) (b q : Str),
    treeKeysAll keyOK t = true → bInv b → q ∈ dlist b t →
    lstarts (b ++ ['/']) q = true := by
  intro t
  induction t using tree_ind with
  | h0 => intro b q _ _ hq; simp [dlist] at hq
  | hf n s rest ih =>
    intro b q hwf hb hq
    rw [treeKeysAll] at hwf
    rcases Bool.and_eq_true_iff.mp hwf with ⟨_, hkr⟩
    simp only [dlist] at hq
    exact ih b q hkr hb hq
  | hd n c rest ihc ihr =>
    intro b q hwf hb hq
    rw [treeKeysAll] at hwf
    rcases Bool.and_eq_true_iff.mp hwf with ⟨h12, hkr⟩
    rcases Bool.and_eq_true_iff.mp h12 with ⟨hkn, hkc⟩
    simp only [dlist, List.mem_cons, List.mem_append] at hq
    rcases hq with rfl | hq | hq
    · rw [pjoin_eq hkn hb, show b ++ '/' :: n = (b ++ ['/']) ++ n from by simp]
      exact lstarts_refl_append _ _
    · have h2 := ihc (pjoin b n) q hkc (bInv_pjoin hkn hb) hq
      apply lstarts_append_weaken (b ++ ['/']) (n ++ ['/'])
      rw [show (b ++ ['/']) ++ (n ++ ['/']) = pjoin b n ++ ['/'] from by
        rw [pjoin_eq hkn hb]; simp]
      exact h2
    · exact ihr b q hkr hb hq

theorem flist_under : ∀ (t : TreeM) (b : Str) (e : Str × Str),
    treeKeysAll keyOK t = true → bInv b → e ∈ flist b t →
    lstarts (b ++ ['/']) e.1 = true := by
  intro t
  induction t using tree_ind with
  | h0 => intro b e _ _ he; simp [flist] at he
  | hf n s rest ih =>
    intro b e hwf hb he
    rw [treeKeysAll] at hwf
    rcases Bool.and_eq_true_iff.mp hwf with ⟨hkn, hkr⟩
    simp only [flist, List.mem_cons] at he
    rcases he with rfl | he
    · show lstarts (b ++ ['/']) (pjoin b n) = true
      rw [pjoin_eq hkn hb, show b ++ '/' :: n = (b ++ ['/']) ++ n from by simp]
      exact lstarts_refl_append _ _
    · exact ih b e hkr hb he
  | hd n c rest ihc ihr =>
    intro b e hwf hb he
    rw [treeKeysAll] at hwf
    rcases Bool.and_eq_true_iff.mp hwf with ⟨h12, hkr⟩
    rcases Bool.and_eq_true_iff.mp h12 with ⟨hkn, hkc⟩
    simp only [flist, List.mem_append] at he
    rcases he with he | he
    · have h2 := ihc (pjoin b n) e hkc (bInv_pjoin hkn hb) he
      apply lstarts_append_weaken (b ++ ['/']) (n ++ ['/'])
      rw [show (b ++ ['/']) ++ (n ++ ['/']) = pjoin b n ++ ['/'] from by
        rw [pjoin_eq hkn hb]; simp]
      exact h2
    · exact ihr b e hkr hb he

theorem topKeys_keyOK : ∀ (t : TreeM) (k : Str),
    treeKeysAll keyOK t = true → k ∈ topKeys t → keyOK k = true := by
  intro t
  induction t with
  | nil => intro k _ hk; simp [topKeys] at hk
  | cons e rest ih =>
    intro k hwf hk
    obtain ⟨n, v⟩ := e
    have hk' : k = n ∨ k ∈ topKeys rest := by
      rw [topKeys_cons] at hk
      exact List.mem_cons.mp hk
    cases v with
    | file s =>
      rw [treeKeysAll] at hwf
      rcases Bool.and_eq_true_iff.mp hwf with ⟨h1, h2⟩
      rcases hk' with rfl | hk'
      · exact h1
      · exact ih k h2 hk'
    | dir c =>
      rw [treeKeysAll] at hwf
      rcases Bool.and_eq_true_iff.mp hwf with ⟨h12, h2⟩
      rcases Bool.and_eq_true_iff.mp h12 with ⟨h1, _⟩
      rcases hk' with rfl | hk'
      · exact h1
      · exact ih k h2 hk'

theorem dlist_ext : ∀ (t : TreeM) (b q : Str),
    treeKeysAll keyOK t = true → bInv b → q ∈ dlist b t →
    ∃ k ext, k ∈ topKeys t ∧ (ext = [] ∨ ∃ r, ext = '/' :: r) ∧
      q = b ++ '/' :: (k ++ ext) := by
  intro t
  induction t using tree_ind with
  | h0 => intro b q _ _ hq; simp [dlist] at hq
  | hf n s rest ih =>
    intro b q hwf hb hq
    rw [treeKeysAll] at hwf
    rcases Bool.and_eq_true_iff.mp hwf with ⟨_, hkr⟩
    simp only [dlist] at hq
    obtain ⟨k, ext, hk, hext, heq⟩ := ih b q hkr hb hq
    exact ⟨k, ext, by rw [topKeys_cons]; exact List.mem_cons_of_mem _ hk, hext, heq⟩
  | hd n c rest ihc ihr =>
    intro b q hwf hb hq
    rw [treeKeysAll] at hwf
    rcases Bool.and_eq_true_iff.mp hwf with ⟨h12, hkr⟩
    rcases Bool.and_eq_true_iff.mp h12 with ⟨hkn, hkc⟩
    simp only [dlist, List.mem_cons, List.mem_append] at hq
    rcases hq with rfl | hq | hq
    · refine ⟨n, [], by rw [topKeys_cons]; exact List.mem_cons_self _ _, Or.inl rfl, ?_⟩
      rw [pjoin_eq hkn hb, List.append_nil]
    · obtain ⟨k2, e2, hk2, hext2, heq2⟩ := ihc (pjoin b n) q hkc (bInv_pjoin hkn hb) hq
      refine ⟨n, '/' :: (k2 ++ e2), by rw [topKeys_cons]; exact List.mem_cons_self _ _,
        Or.inr ⟨_, rfl⟩, ?_⟩
      rw [heq2, pjoin_eq hkn hb]
      simp
    · obtain ⟨k, ext, hk, hext, heq⟩ := ihr b q hkr hb hq
      exact ⟨k, ext, by rw [topKeys_cons]; exact List.mem_cons_of_mem _ hk, hext, heq⟩

theorem flist_ext : ∀ (t : TreeM) (b : Str) (e : Str × Str),
    treeKeysAll keyOK t = true → bInv b → e ∈ flist b t →
    ∃ k ext, k ∈ topKeys t ∧ (ext = [] ∨ ∃ r, ext = '/' :: r) ∧
      e.1 = b ++ '/' :: (k ++ ext) := by
  intro t
  induction t using tree_ind with
  | h0 => intro b e _ _ he; simp [flist] at he
  | hf n s rest ih =>
    intro b e hwf hb he
    rw [treeKeysAll] at hwf
    rcases Bool.and_eq_true_iff.mp hwf with ⟨hkn, hkr⟩
    simp only [flist, List.mem_cons] at he
    rcases he with rfl | he
    · refine ⟨n, [], by rw [topKeys_cons]; exact List.mem_cons_self _ _, Or.inl rfl, ?_⟩
      show pjoin b n = _
      rw [pjoin_eq hkn hb, List.append_nil]
    · obtain ⟨k, ext, hk, hext, heq⟩ := ih b e hkr hb he
      exact ⟨k, ext, by rw [topKeys_cons]; exact List.mem_cons_of_mem _ hk, hext, heq⟩
  | hd n c rest ihc ihr =>
    intro b e hwf hb he
    rw [treeKeysAll] at hwf
    rcases Bool.and_eq_true_iff.mp hwf with ⟨h12, hkr⟩
    rcases Bool.and_eq_true_iff.mp h12 with ⟨hkn, hkc⟩
    simp only [flist, List.mem_append] at he
    rcases he with he | he
    · obtain ⟨k2, e2, hk2, hext2, heq2⟩ := ihc (pjoin b n) e hkc (bInv_pjoin hkn hb) he
      refine ⟨n, '/' :: (k2 ++ e2), by rw [topKeys_cons]; exact List.mem_cons_self _ _,
        Or.inr ⟨_, rfl⟩, ?_⟩
      rw [heq2, pjoin_eq hkn hb]
      simp
    · obtain ⟨k, ext, hk, hext, heq⟩ := ihr b e hkr hb he
      exact ⟨k, ext, by rw [topKeys_cons]; exact List.mem_cons_of_mem _ hk, hext, heq⟩

theorem seg_split : ∀ (k k' ext ext' : Str),
    (∀ c ∈ k, ¬ c = '/') → (∀ c ∈ k', ¬ c = '/') →
    (ext = [] ∨ ∃ r, ext = '/' :: r) → (ext' = [] ∨ ∃ r, ext' = '/' :: r) →
    k ++ ext = k' ++ ext' → k = k' := by
  intro k
  induction k with
  | nil =>
    intro k' ext ext' _ hk' hext _ heq
    cases k' with
    | nil => rfl
    | cons d ds =>
      rcases hext with rfl | ⟨r, rfl⟩
      · rw [List.nil_append] at heq
        exact absurd heq.symm (by simp)
      · rw [List.nil_append, List.cons_append] at heq
        have hd2 : d = '/' := ((List.cons.inj heq).1).symm
        exact absurd hd2 (hk' d (List.mem_cons_self _ _))
  | cons c cs ih =>
    intro k' ext ext' hk hk' hext hext' heq
    cases k' with
    | nil =>
      rcases hext' with rfl | ⟨r, rfl⟩
      · rw [List.nil_append] at heq
        exact absurd heq (by simp)
      · rw [List.nil_append, List.cons_append] at heq
        have hc2 : c = '/' := (List.cons.inj heq).1
        exact absurd hc2 (hk c (List.mem_cons_self _ _))
    | cons d ds =>
      rw [List.cons_append, List.cons_append] at heq
      obtain ⟨h1, h2⟩ := List.cons.inj heq
      subst h1
      rw [ih ds ext ext' (fun x hx => hk x (List.mem_cons_of_mem _ hx))
        (fun x hx => hk' x (List.mem_cons_of_mem _ hx)) hext hext' h2]

theorem base_cancel {b X Y : Str} (h : b ++ '/' :: X = b ++ '/' :: Y) : X = Y :=
  (List.cons.inj (List.append_cancel_left h)).2

theorem not_mem_of_contains_false {l : List Str} {x : Str}
    (h : l.contains x = false) : x ∉ l := by
  intro hm
  have h2 : l.elem x = true := List.elem_iff.mpr hm
  rw [show l.contains x = l.elem x from rfl, h2] at h
  cases h

theorem nodup_head_notmem {n : Str} {rest : TreeM}
    (h : (!((topKeys rest).contains n)) = true) : n ∉ topKeys rest := by
  apply not_mem_of_contains_false
  cases hc : (topKeys rest).contains n with
  | false => rfl
  | true => rw [hc] at h; cases h

theorem ext_head_eq {b n q k2 e2 : Str}
    (hb : bInv b) (hkn : keyOK n = true) (hk2ok : keyOK k2 = true)
    (hext2 : e2 = [] ∨ ∃ r, e2 = '/' :: r)
    (hq1 : q = pjoin b n)
    (hq2 : q = b ++ '/' :: (k2 ++ e2)) : n = k2 := by
  have h3 : n ++ [] = k2 ++ e2 := by
    apply base_cancel (b := b)
    rw [List.append_nil, ← pjoin_eq hkn hb, ← hq1, hq2]
  exact seg_split n k2 [] e2 (keyOK_spec hkn).2 (keyOK_spec hk2ok).2
    (Or.inl rfl) hext2 h3

theorem ext_disjoint {b n q k2 : Str} {X e2 : Str}
    (hb : bInv b) (hkn : keyOK n = true) (hk2ok : keyOK k2 = true)
    (hext2 : e2 = [] ∨ ∃ r, e2 = '/' :: r)
    (hq1 : q = pjoin b n ++ '/' :: X)
    (hq2 : q = b ++ '/' :: (k2 ++ e2)) : n = k2 := by
  have h3 : n ++ '/' :: X = k2 ++ e2 := by
    apply base_cancel (b := b)
    rw [show b ++ '/' :: (n ++ '/' :: X) = pjoin b n ++ '/' :: X from by
      rw [pjoin_eq hkn hb]; simp, ← hq1, hq2]
  exact seg_split n k2 ('/' :: X) e2 (keyOK_spec hkn).2 (keyOK_spec hk2ok).2
    (Or.inr ⟨_, rfl⟩) hext2 h3

theorem dlist_nodup : ∀ (t : TreeM) (b : Str),
    treeKeysAll keyOK t = true → nodupKeys t = true → bInv b →
    (dlist b t).Nodup := by
  intro t
  induction t using tree_ind with
  | h0 => intro b _ _ _; simp [dlist]
  | hf n s rest ih =>
    intro b hwf hnd hb
    rw [treeKeysAll] at hwf
    rw [nodupKeys] at hnd
    rcases Bool.and_eq_true_iff.mp hwf with ⟨_, hkr⟩
    rcases Bool.and_eq_true_iff.mp hnd with ⟨_, hndr⟩
    simp only [dlist]
    exact ih b hkr hndr hb
  | hd n c rest ihc ihr =>
    intro b hwf hnd hb
    rw [treeKeysAll] at hwf
    rw [nodupKeys] at hnd
    rcases Bool.and_eq_true_iff.mp hwf with ⟨h12, hkr⟩
    rcases Bool.and_eq_true_iff.mp h12 with ⟨hkn, hkc⟩
    rcases Bool.and_eq_true_iff.mp hnd with ⟨h34, hndr⟩
    rcases Bool.and_eq_true_iff.mp h34 with ⟨hnm0, hndc⟩
    have hnm : n ∉ topKeys rest := nodup_head_notmem hnm0
    simp only [dlist]
    rw [List.nodup_cons]
    constructor
    · intro hq
      rcases List.mem_append.mp hq with hq | hq
      · have := dlist_under c (pjoin b n) _ hkc (bInv_pjoin hkn hb) hq
        rw [lstarts_base_false] at this
        cases this
      · obtain ⟨k2, e2, hk2, hext2, heq2⟩ := dlist_ext rest b _ hkr hb hq
        have := ext_head_eq hb hkn (topKeys_keyOK rest k2 hkr hk2) hext2 rfl heq2
        exact hnm (this ▸ hk2)
    · refine List.Nodup.append (ihc (pjoin b n) hkc hndc (bInv_pjoin hkn hb))
        (ihr b hkr hndr hb) ?_
      intro q hq1 hq2
      obtain ⟨k1, e1, hk1, hext1, heq1⟩ :=
        dlist_ext c (pjoin b n) q hkc (bInv_pjoin hkn hb) hq1
      obtain ⟨k2, e2, hk2, hext2, heq2⟩ := dlist_ext rest b q hkr hb hq2
      have := ext_disjoint hb hkn (topKeys_keyOK rest k2 hkr hk2) hext2 heq1 heq2
      exact hnm (this ▸ hk2)

theorem flist_keys_nodup : ∀ (t : TreeM) (b : Str),
    treeKeysAll keyOK t = true → nodupKeys t = true → bInv b →
    ((flist b t).map Prod.fst).Nodup := by
  intro t
  induction t using tree_ind with
  | h0 => intro b _ _ _; simp [flist]
  | hf n s rest ih =>
    intro b hwf hnd hb
    rw [treeKeysAll] at hwf
    rw [nodupKeys] at hnd
    rcases Bool.and_eq_true_iff.mp hwf with ⟨hkn, hkr⟩
    rcases Bool.and_eq_true_iff.mp hnd with ⟨hnm0, hndr⟩
    have hnm : n ∉ topKeys rest := nodup_head_notmem hnm0
    simp only [flist, List.map_cons]
    rw [List.nodup_cons]
    constructor
    · intro hq
      rcases List.mem_map.mp hq with ⟨e, he, hee⟩
      obtain ⟨k2, e2, hk2, hext2, heq2⟩ := flist_ext rest b e hkr hb he
      have := ext_head_eq hb hkn (topKeys_keyOK rest k2 hkr hk2) hext2 hee heq2
      exact hnm (this ▸ hk2)
    · exact ih b hkr hndr hb
  | hd n c rest ihc ihr =>
    intro b hwf hnd hb
    rw [treeKeysAll] at hwf
    rw [nodupKeys] at hnd
    rcases Bool.and_eq_true_iff.mp hwf with ⟨h12, hkr⟩
    rcases Bool.and_eq_true_iff.mp h12 with ⟨hkn, hkc⟩
    rcases Bool.and_eq_true_iff.mp hnd with ⟨h34, hndr⟩
    rcases Bool.and_eq_true_iff.mp h34 with ⟨hnm0, hndc⟩
    have hnm : n ∉ topKeys rest := nodup_head_notmem hnm0
    simp only [flist, List.map_append]
    refine List.Nodup.append (ihc (pjoin b n) hkc hndc (bInv_pjoin hkn hb))
      (ihr b hkr hndr hb) ?_
    intro q hq1 hq2
    rcases List.mem_map.mp hq1 with ⟨e1, he1, hee1⟩
    rcases List.mem_map.mp hq2 with ⟨e2m, he2, hee2⟩
    obtain ⟨k1, x1, hk1, hext1, heq1⟩ :=
      flist_ext c (pjoin b n) e1 hkc (bInv_pjoin hkn hb) he1
    obtain ⟨k2, x2, hk2, hext2, heq2⟩ := flist_ext rest b e2m hkr hb he2
    have hq1e : q = pjoin b n ++ '/' :: (k1 ++ x1) := by rw [← hee1, heq1]
    have hq2e : q = b ++ '/' :: (k2 ++ x2) := by rw [← hee2, heq2]
    have := ext_disjoint hb hkn (topKeys_keyOK rest k2 hkr hk2) hext2 hq1e hq2e
    exact hnm (this ▸ hk2)

theorem insertD_nodup {l : List Str} {p : Str} (h : l.Nodup) :
    (insertD l p).Nodup := by
  unfold insertD
  split
  · exact h
  · next hnm =>
    exact List.Nodup.append h (List.nodup_singleton p)
      (fun a ha hb => hnm ((List.mem_singleton.mp hb) ▸ ha))

theorem mkdirsF_nodup : ∀ (fuel : Nat) (fs : FS) (p : Str),
    fs.dirs.Nodup → (mkdirsF fuel fs p).dirs.Nodup := by
  intro fuel
  induction fuel with
  | zero => intro fs p h; exact insertD_nodup h
  | succ fuel ih =>
    intro fs p h
    simp only [mkdirsF]
    apply insertD_nodup
    split
    · exact ih fs _ h
    · exact h

theorem mkdirs_nodup (fs : FS) (p : Str) (h : fs.dirs.Nodup) :
    (mkdirs fs p).dirs.Nodup :=
  mkdirsF_nodup _ fs p h

theorem create_dirs_nodup : ∀ (t : TreeM) (fs : FS) (b : Str),
    fs.dirs.Nodup → (create_structure fs b t).dirs.Nodup := by
  intro t
  induction t using tree_ind with
  | h0 => intro fs b h; simp only [create_structure]; exact h
  | hf n s rest ih =>
    intro fs b h
    simp only [create_structure]
    apply ih
    show (if _ then mkdirs fs _ else fs).dirs.Nodup
    split
    · exact mkdirs_nodup _ _ h
    · exact h
  | hd n c rest ihc ihr =>
    intro fs b h
    simp only [create_structure]
    exact ihr _ _ (ihc _ _ (mkdirs_nodup _ _ h))

theorem lookupF_none_of_not_mem : ∀ {f : List (Str × Str)} {q : Str},
    q ∉ f.map Prod.fst → lookupF f q = none := by
  intro f
  induction f with
  | nil => intro q _; rfl
  | cons e rest ih =>
    intro q h
    obtain ⟨k, v⟩ := e
    rw [List.map_cons] at h
    by_cases hk : k = q
    · exact absurd (by rw [List.mem_cons]; exact Or.inl hk.symm) h
    · simp only [lookupF, if_neg hk]
      exact ih (fun hm => h (List.mem_cons_of_mem _ hm))

theorem setF_append : ∀ {f : List (Str × Str)} {p s : Str},
    lookupF f p = none → setF f p s = f ++ [(p, s)] := by
  intro f
  induction f with
  | nil => intro p s _; rfl
  | cons e rest ih =>
    intro p s h
    obtain ⟨k, v⟩ := e
    simp only [lookupF] at h
    by_cases hk : k = p
    · rw [if_pos hk] at h; cases h
    · rw [if_neg hk] at h
      simp only [setF, if_neg hk, ih h, List.cons_append]

theorem lookupF_append : ∀ (f1 f2 : List (Str × Str)) (q : Str),
    lookupF (f1 ++ f2) q = oor (lookupF f1 q) (lookupF f2 q) := by
  intro f1
  induction f1 with
  | nil => intro f2 q; rfl
  | cons e rest ih =>
    intro f2 q
    obtain ⟨k, v⟩ := e
    simp only [List.cons_append, lookupF]
    by_cases hk : k = q
    · rw [if_pos hk, if_pos hk]; rfl
    · rw [if_neg hk, if_neg hk]; exact ih f2 q

theorem create_files_eq :
    ∀ (t : TreeM) (fs : FS) (b : Str),
      ((flist b t).map Prod.fst).Nodup →
      (∀ q ∈ (flist b t).map Prod.fst, lookupF fs.files q = none) →
      (create_structure fs b t).files = fs.files ++ flist b t := by
  intro t
  induction t using tree_ind with
  | h0 => intro fs b _ _; simp [create_structure, flist]
  | hf n s rest ih =>
    intro fs b hnd hfresh
    simp only [flist, List.map_cons] at hnd hfresh
    rw [List.nodup_cons] at hnd
    obtain ⟨hnm, hndr⟩ := hnd
    have hp_none : lookupF fs.files (pjoin b n) = none :=
      hfresh _ (List.mem_cons_self _ _)
    have hfresh2 : ∀ q ∈ (flist b rest).map Prod.fst,
        lookupF (fs.files ++ [(pjoin b n, s)]) q = none := by
      intro q hq
      rw [lookupF_append, hfresh q (List.mem_cons_of_mem _ hq)]
      show lookupF [(pjoin b n, s)] q = none
      simp only [lookupF]
      rw [if_neg (fun (hpq : pjoin b n = q) => hnm (hpq.symm ▸ hq))]
    have key : ∀ (d : List Str),
        (create_structure ⟨d, setF fs.files (pjoin b n) s⟩ b rest).files =
          fs.files ++ (pjoin b n, s) :: flist b rest := by
      intro d
      rw [setF_append hp_none, ih ⟨d, fs.files ++ [(pjoin b n, s)]⟩ b hndr hfresh2]
      simp
    simp only [create_structure, flist]
    split
    · next hcond =>
      rw [show (mkdirs fs (psplit (pjoin b n)).1).files = fs.files from
        mkdirs_files _ _]
      exact key _
    · exact key _
  | hd n c rest ihc ihr =>
    intro fs b hnd hfresh
    simp only [flist, List.map_append] at hnd hfresh
    have hndc := List.Nodup.of_append_left hnd
    have hndr := List.Nodup.of_append_right hnd
    have disj := List.disjoint_of_nodup_append hnd
    have hfreshc : ∀ q ∈ (flist (pjoin b n) c).map Prod.fst,
        lookupF (mkdirs fs (pjoin b n)).files q = none := by
      intro q hq
      rw [mkdirs_files]
      exact hfresh q (List.mem_append_left _ hq)
    have hfreshr : ∀ q ∈ (flist b rest).map Prod.fst,
        lookupF (create_structure (mkdirs fs (pjoin b n)) (pjoin b n) c).files
          q = none := by
      intro q hq
      rw [ihc (mkdirs fs (pjoin b n)) (pjoin b n) hndc hfreshc, mkdirs_files,
        lookupF_append, hfresh q (List.mem_append_right _ hq)]
      show lookupF (flist (pjoin b n) c) q = none
      exact lookupF_none_of_not_mem (fun hm => disj hm hq)
    simp only [create_structure, flist]
    rw [ihr (create_structure (mkdirs fs (pjoin b n)) (pjoin b n) c) b hndr
      hfreshr, ihc (mkdirs fs (pjoin b n)) (pjoin b n) hndc hfreshc,
      mkdirs_files]
    exact List.append_assoc _ _ _

/-- C10: the final summary counts exclude the target root itself.  For
every well-formed Tree Model (dict-shaped, all keys non-empty and
slash-free) materialized into a fresh target whose root name is itself a
valid key, the reported folder count (directories recorded strictly
below the root) equals the number of mapping-valued nodes of the model,
and the reported file count equals the number of string-valued nodes;
the root directory is not counted. -/
theorem c10_summary_counts (base : Str) (t : TreeM)
    (hwf : wfTree t = true) (hb : keyOK base = true) :
    countFoldersReport (create_structure emptyFS base t) base = countDirNodes t ∧
    countFilesReport (create_structure emptyFS base t) base = countFileNodes t := by
  rw [wfTree] at hwf
  rcases Bool.and_eq_true_iff.mp hwf with ⟨hwfk, hnodup⟩
  have hbI := keyOK_bInv hb
  constructor
  · by_cases hne : t = []
    · subst hne
      simp [create_structure, emptyFS, countFoldersReport, countDirNodes]
    · have hchar := create_dirs_char_empty t base hwfk hb hne
      have hnd_dirs : (create_structure emptyFS base t).dirs.Nodup :=
        create_dirs_nodup t emptyFS base (by simp [emptyFS])
      have hnd_dl : (dlist base t).Nodup := dlist_nodup t base hwfk hnodup hbI
      have hmem : ∀ q, q ∈ (create_structure emptyFS base t).dirs.filter
          (fun p => lstarts (base ++ ['/']) p) ↔ q ∈ dlist base t := by
        intro q
        rw [List.mem_filter]
        constructor
        · rintro ⟨hq, hu⟩
          rcases (hchar q).mp hq with rfl | h
          · rw [lstarts_base_false] at hu; cases hu
          · exact h
        · intro h
          exact ⟨(hchar q).mpr (Or.inr h), dlist_under t base q hwfk hbI h⟩
      have hperm := (List.perm_ext_iff_of_nodup
        (List.Nodup.filter _ hnd_dirs) hnd_dl).mpr hmem
      unfold countFoldersReport
      rw [hperm.length_eq, dlist_length]
  · have hndk : ((flist base t).map Prod.fst).Nodup :=
      flist_keys_nodup t base hwfk hnodup hbI
    have hfeq : (create_structure emptyFS base t).files = flist base t := by
      have h2 := create_files_eq t emptyFS base hndk (fun q _ => rfl)
      simpa [emptyFS] using h2
    unfold countFilesReport
    rw [hfeq, List.filter_eq_self.mpr (fun e he => flist_under t base e hwfk hbI he),
      flist_length]

theorem c10_witness :
    wfTree [(['s'], Node.dir [(['m','.','p'], Node.file [])]),
      (['r','.','t'], Node.file ['x'])] = true ∧
    keyOK ['d'] = true ∧
    countFoldersReport
      (create_structure emptyFS ['d']
        [(['s'], Node.dir [(['m','.','p'], Node.file [])]),
         (['r','.','t'], Node.file ['x'])]) ['d'] =
      countDirNodes [(['s'], Node.dir [(['m','.','p'], Node.file [])]),
        (['r','.','t'], Node.file ['x'])] ∧
    countFilesReport
      (create_structure emptyFS ['d']
        [(['s'], Node.dir [(['m','.','p'], Node.file [])]),
         (['r','.','t'], Node.file ['x'])]) ['d'] =
      countFileNodes [(['s'], Node.dir [(['m','.','p'], Node.file [])]),
        (['r','.','t'], Node.file ['x'])] := by
  have h1 : wfTree [(['s'], Node.dir [(['m','.','p'], Node.file [])]),
      (['r','.','t'], Node.file ['x'])] = true := by
    simp [wfTree, treeKeysAll, nodupKeys, topKeys, keyOK]
  have h2 : keyOK ['d'] = true := by decide
  exact ⟨h1, h2, c10_summary_counts ['d'] _ h1 h2⟩
